import Mathlib

/-
Verification of the configuration-manager resolution pipeline.

The Python source (config_manager/utils.py, env.py, validators.py, core.py)
is shallowly embedded below.  Python strings are modelled as lists of
characters (`Str`), Python dictionaries as ordered association lists
(`Tree`), matching the insertion-ordered semantics of CPython dicts.
All in-place mutation in the source is modelled by returning the updated
structure.  The separator argument (a one-character string `"."` in every
call made by the source) is modelled as a `Char` parameter.
-/

set_option maxHeartbeats 1000000

namespace CM

/-- Python strings, as lists of characters (so that splitting on the path
separator admits direct structural reasoning). -/
abbrev Str := List Char

/-- A Python value stored in a configuration tree: a scalar (`null`, `bool`,
`int`, `float`, `str`), a list, or a nested dictionary.  Dictionaries are
ordered association lists exactly as CPython dicts are insertion ordered.
A `float` carries the literal it was parsed from; no floating-point
arithmetic is performed anywhere in the embedded code. -/
inductive Value where
  | null : Value
  | bool : Bool → Value
  | int : Int → Value
  | float : Str → Value
  | str : Str → Value
  | list : List Value → Value
  | dict : List (Str × Value) → Value

/-- A configuration tree: the payload of a Python dict. -/
abbrev Tree := List (Str × Value)

/-- Is the value a nested dictionary (Python `isinstance(value, dict)`). -/
def Value.isDict : Value → Bool
  | .dict _ => true
  | _ => false

/-- Dictionary key lookup (`data[key]` / `key in data`), first match. -/
def lookup : Tree → Str → Option Value
  | [], _ => none
  | (k', v) :: rest, k => if k' = k then some v else lookup rest k

/-- Dictionary key assignment `data[key] = value`: replaces the value in
place if the key is present (keeping its position), otherwise appends,
exactly as CPython dict insertion order behaves. -/
def setKey : Tree → Str → Value → Tree
  | [], k, v => [(k, v)]
  | (k', v') :: rest, k, v =>
    if k' = k then (k, v) :: rest else (k', v') :: setKey rest k v

/-- Dictionary key removal (`del data[key]` / `data.pop(key)`): removes the
(unique, in any tree coming from a Python dict) entry with that key. -/
def removeKey : Tree → Str → Tree
  | [], _ => []
  | (k', v') :: rest, k =>
    if k' = k then rest else (k', v') :: removeKey rest k

/-- The keys of a tree, in order. -/
def keys (t : Tree) : List Str := t.map Prod.fst

/-- Top-level keys are pairwise distinct: true of every tree that denotes a
Python dict. -/
def nodupKeys : Tree → Bool
  | [] => true
  | (k, _) :: rest => !(keys rest).contains k && nodupKeys rest

@[simp] theorem lookup_nil (k : Str) : lookup [] k = none := rfl

@[simp] theorem lookup_cons (k' k : Str) (v : Value) (rest : Tree) :
    lookup ((k', v) :: rest) k = if k' = k then some v else lookup rest k := rfl

@[simp] theorem keys_nil : keys [] = [] := rfl

@[simp] theorem keys_cons (k : Str) (v : Value) (rest : Tree) :
    keys ((k, v) :: rest) = k :: keys rest := rfl

theorem lookup_eq_none_of_not_mem {t : Tree} {k : Str}
    (h : (keys t).contains k = false) : lookup t k = none := by
  induction t with
  | nil => rfl
  | cons e rest ih =>
    obtain ⟨k', v⟩ := e
    simp only [keys_cons, List.contains_cons, Bool.or_eq_false_iff,
      beq_eq_false_iff_ne] at h
    rw [lookup_cons, if_neg (Ne.symm h.1)]
    exact ih h.2

theorem lookup_setKey_self (t : Tree) (k : Str) (v : Value) :
    lookup (setKey t k v) k = some v := by
  induction t with
  | nil => simp [setKey]
  | cons e rest ih =>
    obtain ⟨k', v'⟩ := e
    by_cases h : k' = k
    · simp [setKey, h]
    · simp [setKey, h, ih]

theorem lookup_setKey_ne (t : Tree) (k k' : Str) (v : Value) (h : k ≠ k') :
    lookup (setKey t k v) k' = lookup t k' := by
  induction t with
  | nil => simp [setKey, h]
  | cons e rest ih =>
    obtain ⟨k₀, v₀⟩ := e
    by_cases h0 : k₀ = k
    · simp [setKey, h0, h]
    · simp only [setKey, if_neg h0, lookup_cons]
      by_cases h1 : k₀ = k'
      · simp [h1]
      · simp [h1, ih]

theorem setKey_setKey (t : Tree) (k : Str) (v w : Value) :
    setKey (setKey t k v) k w = setKey t k w := by
  induction t with
  | nil => simp [setKey]
  | cons e rest ih =>
    obtain ⟨k', v'⟩ := e
    by_cases h : k' = k
    · simp [setKey, h]
    · simp [setKey, h, ih]

theorem setKey_eq_self_of_lookup {t : Tree} {k : Str} {v : Value}
    (h : lookup t k = some v) : setKey t k v = t := by
  induction t with
  | nil => simp [lookup] at h
  | cons e rest ih =>
    obtain ⟨k', v'⟩ := e
    by_cases h0 : k' = k
    · subst h0
      rw [lookup_cons, if_pos rfl] at h
      have hv := Option.some.inj h
      subst hv
      simp [setKey]
    · rw [lookup_cons, if_neg h0] at h
      simp [setKey, h0, ih h]

theorem setKey_eq_append_of_not_mem {t : Tree} {k : Str} (v : Value)
    (h : lookup t k = none) : setKey t k v = t ++ [(k, v)] := by
  induction t with
  | nil => simp [setKey]
  | cons e rest ih =>
    obtain ⟨k', v'⟩ := e
    by_cases h0 : k' = k
    · simp [h0] at h
    · rw [lookup_cons, if_neg h0] at h
      simp [setKey, h0, ih h]

theorem lookup_removeKey_self {t : Tree} {k : Str} (h : nodupKeys t = true) :
    lookup (removeKey t k) k = none := by
  induction t with
  | nil => rfl
  | cons e rest ih =>
    obtain ⟨k', v'⟩ := e
    simp only [nodupKeys, Bool.and_eq_true, Bool.not_eq_true'] at h
    by_cases h0 : k' = k
    · subst h0
      simpa [removeKey] using lookup_eq_none_of_not_mem h.1
    · simp [removeKey, h0, ih h.2]

theorem lookup_removeKey_ne (t : Tree) (k k' : Str) (h : k ≠ k') :
    lookup (removeKey t k) k' = lookup t k' := by
  induction t with
  | nil => rfl
  | cons e rest ih =>
    obtain ⟨k₀, v₀⟩ := e
    by_cases h0 : k₀ = k
    · subst h0
      simp [removeKey, h]
    · simp only [removeKey, if_neg h0, lookup_cons, ih]

/-! ### Splitting a path on the separator

Models Python `key_path.split(separator)` for the one-character separator
used throughout the source. -/

/-- `splitCh sep s` is Python `s.split(sep)` for a one-character `sep`.
In particular `splitCh sep [] = [[]]`, as Python splits the empty string
into a single empty piece. -/
def splitCh (sep : Char) : Str → List Str
  | [] => [[]]
  | c :: cs =>
    match splitCh sep cs with
    | [] => [[]]
    | s :: ss => if c = sep then [] :: s :: ss else (c :: s) :: ss

theorem splitCh_ne_nil (sep : Char) (s : Str) : splitCh sep s ≠ [] := by
  induction s with
  | nil => simp [splitCh]
  | cons c cs ih =>
    simp only [splitCh]
    match h : splitCh sep cs with
    | [] => exact absurd h ih
    | s :: ss =>
      by_cases hc : c = sep <;> simp [hc]

theorem splitCh_no_sep {sep : Char} {s : Str} (h : s.contains sep = false) :
    splitCh sep s = [s] := by
  induction s with
  | nil => rfl
  | cons c cs ih =>
    simp only [List.contains_cons, Bool.or_eq_false_iff,
      beq_eq_false_iff_ne] at h
    simp only [splitCh, ih h.2, if_neg (Ne.symm h.1)]

theorem splitCh_append_sep (sep : Char) (a b : Str) :
    splitCh sep (a ++ sep :: b) = splitCh sep a ++ splitCh sep b := by
  induction a with
  | nil =>
    show splitCh sep (sep :: b) = [[]] ++ splitCh sep b
    simp only [splitCh]
    cases h : splitCh sep b with
    | nil => exact absurd h (splitCh_ne_nil sep b)
    | cons s ss => simp
  | cons c cs ih =>
    show splitCh sep (c :: (cs ++ sep :: b)) = _
    simp only [splitCh, ih]
    cases h : splitCh sep cs with
    | nil => exact absurd h (splitCh_ne_nil sep cs)
    | cons s ss =>
      by_cases hc : c = sep <;> simp [hc]

/-! ### utils.deep_merge -/

mutual
/-- `utils.deep_merge`: start from a deep copy of `base` (the identity in
this pure model) and iterate the overlay items in order; a key whose value
is a dict both in the accumulator and in the overlay is merged recursively,
any other combination is replaced by (a deep copy of) the overlay value. -/
def deep_merge : Tree → Tree → Tree
  | base, [] => base
  | base, (k, v) :: rest =>
    deep_merge (setKey base k (mergeVal (lookup base k) v)) rest
termination_by b o => sizeOf o
decreasing_by all_goals (simp_wf <;> omega)

/-- The value stored for one overlay key by `deep_merge`: recursive merge
when both sides are dicts, otherwise the overlay value. -/
def mergeVal : Option Value → Value → Value
  | some (.dict bd), .dict od => .dict (deep_merge bd od)
  | _, v => v
termination_by bv v => sizeOf v
decreasing_by all_goals (simp_wf <;> omega)
end

@[simp] theorem deep_merge_nil (b : Tree) : deep_merge b [] = b := by
  simp [deep_merge]

theorem deep_merge_cons (b : Tree) (k : Str) (v : Value) (rest : Tree) :
    deep_merge b ((k, v) :: rest) =
      deep_merge (setKey b k (mergeVal (lookup b k) v)) rest := by
  simp [deep_merge]

theorem mergeVal_none (v : Value) : mergeVal none v = v := by
  cases v <;> simp [mergeVal]

theorem mergeVal_not_dict (bv : Value) (v : Value) (h : bv.isDict = false) :
    mergeVal (some bv) v = v := by
  cases bv <;> cases v <;> simp_all [mergeVal, Value.isDict]

theorem mergeVal_dict_dict (bd od : Tree) :
    mergeVal (some (.dict bd)) (.dict od) = .dict (deep_merge bd od) := by
  simp [mergeVal]

theorem lookup_append (x y : Tree) (k : Str) :
    lookup (x ++ y) k =
      match lookup x k with
      | some v => some v
      | none => lookup y k := by
  induction x with
  | nil => simp
  | cons e rest ih =>
    obtain ⟨k', v'⟩ := e
    by_cases h : k' = k <;> simp [h, ih]

/-- The central characterization of `deep_merge` at the level of lookups:
dict/dict keys merge recursively, any other overlay value wins, keys only
in the base keep their base value. -/
theorem lookup_deep_merge (o : Tree) (ho : nodupKeys o = true) (b : Tree)
    (k : Str) :
    lookup (deep_merge b o) k =
      match lookup o k, lookup b k with
      | some (.dict od), some (.dict bd) => some (.dict (deep_merge bd od))
      | some v, _ => some v
      | none, bv => bv := by
  induction o generalizing b with
  | nil =>
    cases hb : lookup b k <;> simp [hb]
  | cons e rest ih =>
    obtain ⟨k', v'⟩ := e
    simp only [nodupKeys, Bool.and_eq_true, Bool.not_eq_true'] at ho
    rw [deep_merge_cons, ih ho.2]
    by_cases hk : k' = k
    · subst hk
      rw [lookup_eq_none_of_not_mem ho.1, lookup_setKey_self, lookup_cons,
        if_pos rfl]
      cases hb : lookup b k' with
      | none => cases v' <;> simp [mergeVal]
      | some bv => cases bv <;> cases v' <;> simp [mergeVal]
    · rw [lookup_setKey_ne _ _ _ _ hk, lookup_cons, if_neg hk]

theorem deep_merge_append_of_disjoint {o : Tree} (ho : nodupKeys o = true)
    {b : Tree} (hd : ∀ k, (keys o).contains k = true → lookup b k = none) :
    deep_merge b o = b ++ o := by
  induction o generalizing b with
  | nil => simp
  | cons e rest ih =>
    obtain ⟨k, v⟩ := e
    simp only [nodupKeys, Bool.and_eq_true, Bool.not_eq_true'] at ho
    have hbk : lookup b k = none := hd k (by simp)
    have hd' : ∀ k', (keys rest).contains k' = true →
        lookup (b ++ [(k, v)]) k' = none := by
      intro k' hk'
      have hne : k ≠ k' := by
        intro he
        subst he
        rw [ho.1] at hk'
        exact Bool.false_ne_true hk'
      rw [lookup_append,
        hd k' (by simp only [keys_cons, List.contains_cons, hk', Bool.or_true])]
      simp [hne]
    rw [deep_merge_cons, hbk, mergeVal_none,
      setKey_eq_append_of_not_mem v hbk, ih ho.2 hd', List.append_assoc]
    rfl

/-- Loading into an empty tree copies the overlay verbatim. -/
theorem deep_merge_nil_left {t : Tree} (h : nodupKeys t = true) :
    deep_merge [] t = t := by
  simpa using @deep_merge_append_of_disjoint t h [] (fun _ _ => rfl)

/-! ### Dot-path access: utils.get_nested_value / set_nested_value /
has_nested_key, and ConfigManager.delete -/

/-- The walk of `utils.get_nested_value` over already-split path segments:
descend while the current value is a dict containing the segment, return
the default the instant a segment is missing (`KeyError`) or the current
value is not a dict. -/
def getNestedSegs (dflt : Value) : Value → List Str → Value
  | cur, [] => cur
  | cur, k :: ks =>
    match cur with
    | .dict t =>
      match lookup t k with
      | some v => getNestedSegs dflt v ks
      | none => dflt
    | _ => dflt

/-- `utils.get_nested_value(data, key_path, default, separator)`. -/
def get_nested_value (sep : Char) (data : Tree) (path : Str)
    (dflt : Value) : Value :=
  getNestedSegs dflt (.dict data) (splitCh sep path)

/-- The walk of `utils.has_nested_key` over split segments. -/
def hasNestedSegs : Value → List Str → Bool
  | _, [] => true
  | cur, k :: ks =>
    match cur with
    | .dict t =>
      match lookup t k with
      | some v => hasNestedSegs v ks
      | none => false
    | _ => false

/-- `utils.has_nested_key(data, key_path, separator)`. -/
def has_nested_key (sep : Char) (data : Tree) (path : Str) : Bool :=
  hasNestedSegs (.dict data) (splitCh sep path)

/-- The common notion of a dot-path resolving to a value: follow dict
entries segment by segment.  `get_nested_value` and `has_nested_key` are
proved below to be its two projections. -/
def resolvePath : Value → List Str → Option Value
  | cur, [] => some cur
  | cur, k :: ks =>
    match cur with
    | .dict t =>
      match lookup t k with
      | some v => resolvePath v ks
      | none => none
    | _ => none

theorem getNestedSegs_eq_resolve (dflt : Value) (cur : Value)
    (segs : List Str) :
    getNestedSegs dflt cur segs = (resolvePath cur segs).getD dflt := by
  induction segs generalizing cur with
  | nil => rfl
  | cons k ks ih =>
    cases cur with
    | dict t =>
      cases h : lookup t k with
      | none => simp [getNestedSegs, resolvePath, h]
      | some v => simp [getNestedSegs, resolvePath, h, ih]
    | null => rfl
    | bool b => rfl
    | int n => rfl
    | float f => rfl
    | str s => rfl
    | list l => rfl

theorem hasNestedSegs_eq_resolve (cur : Value) (segs : List Str) :
    hasNestedSegs cur segs = (resolvePath cur segs).isSome := by
  induction segs generalizing cur with
  | nil => rfl
  | cons k ks ih =>
    cases cur with
    | dict t =>
      cases h : lookup t k with
      | none => simp [hasNestedSegs, resolvePath, h]
      | some v => simp [hasNestedSegs, resolvePath, h, ih]
    | null => rfl
    | bool b => rfl
    | int n => rfl
    | float f => rfl
    | str s => rfl
    | list l => rfl

/-- The nested dict found at a key, or a fresh empty dict when the key is
missing or holds a non-dict value: the intermediate-creation behaviour of
`utils.set_nested_value`. -/
def subd (t : Tree) (k : Str) : Tree :=
  match lookup t k with
  | some (.dict d) => d
  | _ => []

/-- The walk of `utils.set_nested_value` over split segments: navigate to
the parent of the final segment, creating an empty dict for a missing
intermediate and silently replacing a non-dict intermediate by an empty
dict, then assign the final key.  The source never reaches the `[]` case
(`split` always returns a non-empty list); the branch returns the tree
unchanged. -/
def setNestedSegs : Tree → List Str → Value → Tree
  | t, [], _ => t
  | t, k :: ks, v =>
    if ks.isEmpty then setKey t k v
    else setKey t k (.dict (setNestedSegs (subd t k) ks v))

/-- `utils.set_nested_value(data, key_path, value, separator)`. -/
def set_nested_value (sep : Char) (data : Tree) (path : Str)
    (v : Value) : Tree :=
  setNestedSegs data (splitCh sep path) v

/-- `ConfigManager.delete` over split segments: navigate to the parent of
the final segment through dict values only (a missing key raises
`KeyError`, a non-dict subscript raises `TypeError`, both swallowed as a
no-op), then remove the final key if the parent dict contains it.  The
boolean records whether an entry was actually removed (the source clears
its resolved cache exactly then). -/
def deleteNestedSegs : Tree → List Str → Tree × Bool
  | t, [] => (t, false)
  | t, [k] =>
    match lookup t k with
    | some _ => (removeKey t k, true)
    | none => (t, false)
  | t, k :: ks =>
    match lookup t k with
    | some (.dict d) =>
      ((setKey t k (.dict (deleteNestedSegs d ks).1)), (deleteNestedSegs d ks).2)
    | _ => (t, false)

theorem deleteNestedSegs_noop {t : Tree} {segs : List Str}
    (h : (deleteNestedSegs t segs).2 = false) :
    (deleteNestedSegs t segs).1 = t := by
  induction segs generalizing t with
  | nil => rfl
  | cons k ks ih =>
    cases ks with
    | nil =>
      cases hl : lookup t k <;> simp_all [deleteNestedSegs]
    | cons k2 ks2 =>
      cases hl : lookup t k with
      | none => simp [deleteNestedSegs, hl]
      | some v =>
        cases v with
        | dict d =>
          simp only [deleteNestedSegs, hl] at h ⊢
          rw [ih h, setKey_eq_self_of_lookup hl]
        | null => simp [deleteNestedSegs, hl]
        | bool b => simp [deleteNestedSegs, hl]
        | int n => simp [deleteNestedSegs, hl]
        | float f => simp [deleteNestedSegs, hl]
        | str s => simp [deleteNestedSegs, hl]
        | list l => simp [deleteNestedSegs, hl]

/-! ### env.py: environments and environment-variable overrides -/

/-- The closed set of environments (env.Environment). -/
inductive Environment where
  | development
  | staging
  | production
  | testing
deriving DecidableEq

/-- The canonical string identifier of an environment (its enum value). -/
def Environment.value : Environment → Str
  | .development => "development".data
  | .staging => "staging".data
  | .production => "production".data
  | .testing => "testing".data

/-- ASCII whitespace stripped by Python `str.strip()` and by `int()` /
`float()` conversion.  (The full Unicode whitespace set is not needed for
the values modelled here.) -/
def pyWs (c : Char) : Bool :=
  c = ' ' || c = '\t' || c = '\n' || c = '\r' || c = '\x0B' || c = '\x0C'

/-- Python `str.strip()` for ASCII whitespace. -/
def stripWs (s : Str) : Str :=
  ((s.dropWhile pyWs).reverse.dropWhile pyWs).reverse

/-- Tail of a Python digit group: ASCII digits with single underscores
allowed between digits (as `int()` and `float()` accept). -/
def digitsTail : List Char → Bool
  | [] => true
  | '_' :: c :: rest => c.isDigit && digitsTail rest
  | '_' :: [] => false
  | c :: rest => c.isDigit && digitsTail rest

/-- A non-empty Python digit group: starts with a digit, single underscores
only between digits. -/
def digitsGroup : List Char → Bool
  | [] => false
  | c :: rest => c.isDigit && digitsTail rest

/-- Numeric value of a digit group, ignoring underscores. -/
def digitsVal (l : List Char) : Nat :=
  l.foldl (fun n c => if c = '_' then n else n * 10 + (c.toNat - '0'.toNat)) 0

/-- Python `int(s)` on a string: optional surrounding whitespace, optional
sign, then a digit group.  (ASCII digits; Unicode digits are out of scope
for the environment values modelled.)  Returns `none` where `int()` raises
`ValueError`. -/
def pyInt (s : Str) : Option Int :=
  match stripWs s with
  | '+' :: rest => if digitsGroup rest then some (digitsVal rest) else none
  | '-' :: rest => if digitsGroup rest then some (-(digitsVal rest : Int)) else none
  | rest => if digitsGroup rest then some (digitsVal rest) else none

/-- Split a float literal at the first exponent marker `e` / `E`. -/
def splitExpChar : Str → Str × Option Str
  | [] => ([], none)
  | c :: rest =>
    if c = 'e' ∨ c = 'E' then ([], some rest)
    else ((splitExpChar rest).1.cons c, (splitExpChar rest).2)

/-- Mantissa of a Python float literal: `digits`, `digits.`, `digits.digits`
or `.digits` (with underscore groups). -/
def mantissaOk (s : Str) : Bool :=
  match splitCh '.' s with
  | [a] => digitsGroup a
  | [a, b] => (digitsGroup a && (b.isEmpty || digitsGroup b)) ||
              (a.isEmpty && digitsGroup b)
  | _ => false

/-- Exponent of a Python float literal: optional sign then a digit group. -/
def expOk : Str → Bool
  | '+' :: r => digitsGroup r
  | '-' :: r => digitsGroup r
  | r => digitsGroup r

/-- Unsigned body of a Python float literal: `inf` / `infinity` / `nan`
(case-insensitive) or a mantissa with an optional exponent. -/
def floatBody (s : Str) : Bool :=
  let ls := s.map Char.toLower
  if ls = "inf".data ∨ ls = "infinity".data ∨ ls = "nan".data then true
  else
    match splitExpChar s with
    | (m, none) => mantissaOk m
    | (m, some ex) => mantissaOk m && expOk ex

/-- Does Python `float(s)` succeed?  (`true` where `float()` returns a
value, `false` where it raises `ValueError`.) -/
def pyFloatOk (s : Str) : Bool :=
  match stripWs s with
  | '+' :: r => floatBody r
  | '-' :: r => floatBody r
  | r => floatBody r

/-- `EnvironmentManager._convert_env_value`: empty string unchanged;
case-insensitive truthy and falsy word sets; then, when the string has no
dot and no (lowercased) `e`, attempt `int()`; otherwise attempt `float()`;
a `ValueError` from either falls through to returning the raw string. -/
def convert_env_value (v : Str) : Value :=
  if v = [] then .str []
  else
    let lower := v.map Char.toLower
    if lower = "true".data ∨ lower = "yes".data ∨ lower = "1".data ∨
       lower = "on".data ∨ lower = "enabled".data then .bool true
    else if lower = "false".data ∨ lower = "no".data ∨ lower = "0".data ∨
       lower = "off".data ∨ lower = "disabled".data then .bool false
    else if v.contains '.' = false ∧ lower.contains 'e' = false then
      match pyInt v with
      | some n => .int n
      | none => .str v
    else if pyFloatOk v then .float v
    else .str v

/-- The environment-variable name to configuration dot-path conversion of
`get_env_overrides`: strip the prefix (done by the caller), lowercase, and
replace every underscore by a literal dot. -/
def envKeyToPath (k : Str) : Str :=
  (k.map Char.toLower).map (fun c => if c = '_' then '.' else c)

/-- The override tree computed by `EnvironmentManager.get_env_overrides`
from a snapshot of the process environment (an ordered association list,
as `os.environ` iteration): every variable whose name starts with the
prefix contributes its converted value at the derived dot-path. -/
def computeOverrides (environ : List (Str × Str)) (pfx : Str) : Tree :=
  environ.foldl
    (fun acc e =>
      if pfx.isPrefixOf e.1 then
        set_nested_value '.' acc (envKeyToPath (e.1.drop pfx.length))
          (convert_env_value e.2)
      else acc) []

/-- The mutable state of an `EnvironmentManager`: the current environment
(modelled after its lazy first resolution) and the overrides cache. -/
structure EnvManagerState where
  currentEnv : Environment
  envCache : Option Tree

/-- `EnvironmentManager.set_environment`: sets the environment and clears
the overrides cache. -/
def set_environment (e : Environment) (_s : EnvManagerState) : EnvManagerState :=
  { currentEnv := e, envCache := none }

/-- `EnvironmentManager.get_env_overrides(prefix, cache)`: with caching on
and a populated cache, return the cached tree (whatever prefix produced
it); otherwise compute, and store when caching is on. -/
def get_env_overrides (environ : List (Str × Str)) (pfx : Str)
    (cache : Bool) (s : EnvManagerState) : Tree × EnvManagerState :=
  match cache, s.envCache with
  | true, some c => (c, s)
  | _, _ =>
    let ov := computeOverrides environ pfx
    (ov, if cache then { s with envCache := some ov } else s)

/-! ### validators.py -/

/-- `validators.ValidationRule`.  The `required` field models the
`required` attribute read by `getattr(rule, 'required', False)`: absent
(hence `false`) for every rule except the built-in `required` rule, on
which the source sets it to `True` after construction.  A predicate that
raises is modelled as returning `false`, as `ValidationRule.validate`
catches every exception and reports invalid. -/
structure ValidationRule where
  name : Str
  validator : Value → Bool
  errorMessage : Str
  required : Bool := false

/-- The rule registry: key-path to ordered rule list, in first-registration
order (a Python dict of lists). -/
abbrev Registry := List (Str × List ValidationRule)

/-- `ConfigValidator.add_rule` with a rule object: append to the list for
the key path, creating the entry (at the end, dict insertion order) if
missing. -/
def addRuleReg (R : Registry) (p : Str) (r : ValidationRule) : Registry :=
  match R with
  | [] => [(p, [r])]
  | (p', rs) :: rest =>
    if p' = p then (p', rs ++ [r]) :: rest else (p', rs) :: addRuleReg rest p r

mutual
/-- Python `repr` of a value, used by `str` for container elements.  The
`float` case prints the stored literal (the shortest-repr of the parsed
double is not modelled; no theorem depends on it). -/
def pyRepr : Value → Str
  | .null => "None".data
  | .bool true => "True".data
  | .bool false => "False".data
  | .int n => (toString n).data
  | .float s => s
  | .str s => Char.ofNat 39 :: s ++ [Char.ofNat 39]
  | .list l => '[' :: pyReprItems l ++ [']']
  | .dict t => Char.ofNat 123 :: pyReprEntries t ++ [Char.ofNat 125]

def pyReprItems : List Value → Str
  | [] => []
  | [v] => pyRepr v
  | v :: rest => pyRepr v ++ ", ".data ++ pyReprItems rest

def pyReprEntries : List (Str × Value) → Str
  | [] => []
  | [(k, v)] => pyRepr (.str k) ++ ": ".data ++ pyRepr v
  | (k, v) :: rest =>
    pyRepr (.str k) ++ ": ".data ++ pyRepr v ++ ", ".data ++ pyReprEntries rest
end

/-- Python `str` of a value (format-string interpolation). -/
def pyStr : Value → Str
  | .str s => s
  | v => pyRepr v

/-- The `is_not_empty` predicate of the built-in `required` rule. -/
def is_not_empty : Value → Bool
  | .null => false
  | .str s => !(stripWs s).isEmpty
  | .list l => !l.isEmpty
  | .dict t => !t.isEmpty
  | _ => true

/-- Scheme validity for `urlparse`: a letter followed by letters, digits,
`+`, `-` or `.`. -/
def validScheme : Str → Bool
  | [] => false
  | c :: r => c.isAlpha && r.all (fun x => x.isAlphanum || x = '+' || x = '-' || x = '.')

/-- Split at the first colon, for scheme detection. -/
def splitColon : Str → Option (Str × Str)
  | [] => none
  | c :: rest =>
    if c = ':' then some ([], rest)
    else (splitColon rest).map (fun q => (c :: q.1, q.2))

/-- The `is_valid_url` predicate of the built-in `url` rule:
`urlparse(str(value))` must have a non-empty scheme and netloc.  `urlparse`
is modelled for exactly the two components consulted: a valid scheme
before a colon, and a netloc after `//` running to the next `/`, `?` or
`#`. -/
def is_valid_url (v : Value) : Bool :=
  let s := pyStr v
  let rest :=
    match splitColon s with
    | some q => if validScheme q.1 then some q.2 else none
    | none => none
  match rest with
  | some ('/' :: '/' :: r) =>
    !(r.takeWhile (fun c => ¬ (c = '/' ∨ c = '?' ∨ c = '#'))).isEmpty
  | _ => false

/-- The built-in `url` rule (no `required` attribute, so `getattr`
defaults it to false). -/
def urlRule : ValidationRule :=
  { name := "url".data
    validator := is_valid_url
    errorMessage := "must be a valid URL with scheme and netloc".data }

/-- The built-in `required` rule, the only rule marked `required`. -/
def requiredRule : ValidationRule :=
  { name := "required".data
    validator := is_not_empty
    errorMessage := "is required and cannot be empty".data
    required := true }

/-- The errors `ConfigValidator.validate` emits for one registered
key-path: resolve the value by nested get (default `None`); when `None`,
one missing-key error if any rule is required and nothing otherwise; when
present, one error per failing rule, in registration order. -/
def pathErrors (config : Tree) (p : Str) (rs : List ValidationRule) :
    List Str :=
  match get_nested_value '.' config p .null with
  | .null =>
    if rs.any (fun r => r.required) then
      [p ++ ": Required key is missing".data]
    else []
  | v =>
    rs.filterMap (fun r =>
      if r.validator v then none
      else some (p ++ ": ".data ++ r.errorMessage ++ " (value: ".data ++
        pyStr v ++ ")".data))

/-- `ConfigValidator.validate` without the raise flag: concatenate the
per-path errors in registration order. -/
def validatorErrors (R : Registry) (config : Tree) : List Str :=
  R.foldr (fun pr acc => pathErrors config pr.1 pr.2 ++ acc) []

/-- `ConfigValidator.validate(config, raise_on_error)`: the error list as
data, or a `ConfigValidationError` carrying the list when the caller opted
in and it is non-empty. -/
def validatorValidate (R : Registry) (config : Tree) (raiseOnErr : Bool) :
    Except (List Str) (List Str) :=
  let errors := validatorErrors R config
  if raiseOnErr ∧ errors ≠ [] then .error errors else .ok errors

/-! ### core.py: ConfigManager -/

/-- The mutable state of a `ConfigManager`: the raw configuration tree,
the environment manager, the validator registry and the resolved-config
cache.  (The loaded-files list and the format loaders are out of scope:
no claim depends on them.) -/
structure CMState where
  config_data : Tree
  envSt : EnvManagerState
  rules : Registry
  resolvedCache : Option Tree

/-- The environment-overlay resolution performed by
`ConfigManager.get_resolved_config` when it recomputes: shallow-copy the
top level; if the key equal to the active environment value is present,
pop it, and deep-merge the popped value over the rest only when it is a
dict. -/
def resolveConfig (data : Tree) (env : Environment) : Tree :=
  match lookup data env.value with
  | some envCfg =>
    match envCfg with
    | .dict d => deep_merge (removeKey data env.value) d
    | _ => removeKey data env.value
  | none => data

/-- `ConfigManager.get_resolved_config(use_cache)`: return the cache when
allowed and populated, otherwise recompute and store when caching. -/
def get_resolved_config (s : CMState) (useCache : Bool) : Tree × CMState :=
  match useCache, s.resolvedCache with
  | true, some c => (c, s)
  | _, _ =>
    let r := resolveConfig s.config_data s.envSt.currentEnv
    (r, if useCache then { s with resolvedCache := some r } else s)

/-- `ConfigManager.set`: nested set, then invalidate the cache. -/
def cmSet (p : Str) (v : Value) (s : CMState) : CMState :=
  { s with config_data := set_nested_value '.' s.config_data p v
           resolvedCache := none }

/-- `ConfigManager.delete`: remove the key when reachable; the cache is
invalidated exactly when an entry was removed. -/
def cmDelete (p : Str) (s : CMState) : CMState :=
  let r := deleteNestedSegs s.config_data (splitCh '.' p)
  { s with config_data := r.1
           resolvedCache := if r.2 then none else s.resolvedCache }

/-- `ConfigManager.load_dict`: deep-merge the incoming dict over the raw
tree (incoming wins) and invalidate the cache. -/
def cmLoadDict (d : Tree) (s : CMState) : CMState :=
  { s with config_data := deep_merge s.config_data d
           resolvedCache := none }

/-- `ConfigManager.update`: sequential `set` calls. -/
def cmUpdate (us : List (Str × Value)) (s : CMState) : CMState :=
  us.foldl (fun st e => cmSet e.1 e.2 st) s

/-- `ConfigManager.set_environment`: delegate to the resolver (which also
clears the overrides cache) and invalidate the resolved cache. -/
def cmSetEnvironment (e : Environment) (s : CMState) : CMState :=
  { s with envSt := set_environment e s.envSt
           resolvedCache := none }

/-- `ConfigManager.apply_env_overrides(prefix)`: fetch the overrides
through the (caching) environment manager; when non-empty, merge them over
the raw tree and invalidate the cache. -/
def cmApplyEnvOverrides (environ : List (Str × Str)) (pfx : Str)
    (s : CMState) : CMState :=
  let r := get_env_overrides environ pfx true s.envSt
  if r.1.isEmpty = false then
    { s with envSt := r.2
             config_data := deep_merge s.config_data r.1
             resolvedCache := none }
  else { s with envSt := r.2 }

/-- `ConfigManager.clear`: drop all configuration data. -/
def cmClear (s : CMState) : CMState :=
  { s with config_data := []
           resolvedCache := none }

/-- `ConfigManager.add_validation_rule` with a rule object. -/
def cmAddRule (p : Str) (r : ValidationRule) (s : CMState) : CMState :=
  { s with rules := addRuleReg s.rules p r }

/-- `ConfigManager.validate(raise_on_error)`: resolve (with caching!) and
run the validator on the snapshot. -/
def cmValidate (s : CMState) (raiseOnErr : Bool) :
    Except (List Str) (List Str) × CMState :=
  let rc := get_resolved_config s true
  (validatorValidate s.rules rc.1 raiseOnErr, rc.2)

/-- The `ConfigStore` operations quantified over by the cache-coherence
claim, as a single step relation. -/
inductive Op where
  | set (p : Str) (v : Value)
  | del (p : Str)
  | loadDict (d : Tree)
  | update (us : List (Str × Value))
  | applyEnvOverrides (environ : List (Str × Str)) (pfx : Str)
  | clear
  | setEnvironment (e : Environment)
  | getResolved (useCache : Bool)
  | validateOp (raiseOnErr : Bool)
  | addRule (p : Str) (r : ValidationRule)

/-- One `ConfigManager` operation acting on the state. -/
def step (s : CMState) : Op → CMState
  | .set p v => cmSet p v s
  | .del p => cmDelete p s
  | .loadDict d => cmLoadDict d s
  | .update us => cmUpdate us s
  | .applyEnvOverrides environ pfx => cmApplyEnvOverrides environ pfx s
  | .clear => cmClear s
  | .setEnvironment e => cmSetEnvironment e s
  | .getResolved b => (get_resolved_config s b).2
  | .validateOp r => (cmValidate s r).2
  | .addRule p r => cmAddRule p r s

/-- A sequence of `ConfigManager` operations. -/
def run (s : CMState) (ops : List Op) : CMState := ops.foldl step s

/-- The state of a freshly constructed `ConfigManager` (environment as
resolved on first use, both caches empty, nothing loaded). -/
def initState (e : Environment) : CMState :=
  { config_data := []
    envSt := { currentEnv := e, envCache := none }
    rules := []
    resolvedCache := none }

/-! ### utils.flatten_dict / unflatten_dict -/

/-- Python `result.update(other)`: fold dict assignment over the incoming
entries. -/
def updList (acc : Tree) (l : List (Str × Value)) : Tree :=
  l.foldl (fun a e => setKey a e.1 e.2) acc

/-- The accumulator loop of `utils.flatten_dict`: iterate the entries; a
dict value contributes the flattening of the subtree under the extended
key (via `result.update`), any other value is assigned at the joined key.
An empty prefix (Python falsy) leaves the key unprefixed. -/
def flattenStep (sep : Char) : Str → Tree → Tree → Tree
  | _, acc, [] => acc
  | pre, acc, (k, v) :: rest =>
    let nk := if pre.isEmpty then k else pre ++ sep :: k
    match v with
    | .dict d => flattenStep sep pre (updList acc (flattenStep sep nk [] d)) rest
    | _ => flattenStep sep pre (setKey acc nk v) rest
termination_by pre acc t => sizeOf t
decreasing_by all_goals (simp_wf <;> omega)

/-- `utils.flatten_dict(data, separator, prefix)`. -/
def flatten_dict (sep : Char) (t : Tree) (pre : Str) : Tree :=
  flattenStep sep pre [] t

/-- The replay of a flat entry list by repeated `set_nested_value` into an
accumulator; `unflatten_dict` is its instance at the empty accumulator. -/
def replayFlat (sep : Char) (acc : Tree) (l : List (Str × Value)) : Tree :=
  l.foldl (fun a e => set_nested_value sep a e.1 e.2) acc

/-- `utils.unflatten_dict(flat_data, separator)`: set every flat entry
into an initially empty tree. -/
def unflatten_dict (sep : Char) (flat : Tree) : Tree :=
  replayFlat sep [] flat

/-- The flat entry list produced under a non-empty prefix, in emission
order.  On the inputs considered by the round-trip claim the flat keys are
pairwise distinct (proved below), so the dict accumulation of the source
(`flattenStep`) produces exactly this list. -/
def flattenA (sep : Char) (pre : Str) : Tree → List (Str × Value)
  | [] => []
  | (k, v) :: rest =>
    (match v with
     | .dict d => flattenA sep (pre ++ sep :: k) d
     | _ => [(pre ++ sep :: k, v)]) ++ flattenA sep pre rest
termination_by t => sizeOf t
decreasing_by all_goals (simp_wf <;> omega)

/-- The flat entry list produced at the root (empty prefix): a top-level
empty-string key with a dict value recurses with the prefix still empty
(Python treats the empty new key as falsy), any other dict value starts a
prefixed subtree. -/
def flattenRootA (sep : Char) : Tree → List (Str × Value)
  | [] => []
  | (k, v) :: rest =>
    (match v with
     | .dict d => if k.isEmpty then flattenRootA sep d else flattenA sep k d
     | _ => [(k, v)]) ++ flattenRootA sep rest
termination_by t => sizeOf t
decreasing_by all_goals (simp_wf <;> omega)

mutual
/-- Round-trip well-formedness of a value: a dict value is non-empty and
recursively well formed. -/
def goodVal (sep : Char) : Value → Bool
  | .dict xs => !xs.isEmpty && goodEntries sep xs
  | _ => true
termination_by v => sizeOf v
decreasing_by all_goals (simp_wf <;> omega)

/-- Round-trip well-formedness of a tree level: keys contain no separator
and are pairwise distinct (dict-shaped), values are well formed. -/
def goodEntries (sep : Char) : Tree → Bool
  | [] => true
  | (k, v) :: rest =>
    !k.contains sep && !(keys rest).contains k && goodVal sep v &&
      goodEntries sep rest
termination_by t => sizeOf t
decreasing_by all_goals (simp_wf <;> omega)
end

/-- No top-level key is the empty string with a dict value (the extra
condition the round trip needs). -/
def noTopEmptyDict : Tree → Bool
  | [] => true
  | (k, v) :: rest => !(k.isEmpty && v.isDict) && noTopEmptyDict rest

/-- The segment paths of the leaves of a tree, in emission order. -/
def leafPaths : Tree → List (List Str)
  | [] => []
  | (k, v) :: rest =>
    (match v with
     | .dict d => (leafPaths d).map (fun q => k :: q)
     | _ => [[k]]) ++ leafPaths rest
termination_by t => sizeOf t
decreasing_by all_goals (simp_wf <;> omega)

/-- Planting a subtree at a segment path: at the empty path this is a
deep merge over the accumulator; at a step it descends through the dict
at the head key (an empty dict when missing or non-dict, as
`set_nested_value` creates).  Planting an empty subtree is the identity.
This is the closed form of replaying a flattened subtree. -/
def plantAt (acc : Tree) : List Str → Tree → Tree
  | _, [] => acc
  | [], t => deep_merge acc t
  | k :: rest, t => setKey acc k (.dict (plantAt (subd acc k) rest t))

/-! ### Supporting lemmas for the claims -/

/-- The conversion precedence exactly as claim C2 states it: boolean word
sets first, then integer parse (guarded by the no-dot / no-exponent-letter
test), then float parse, then the raw string. -/
def convertEnvValueClaim (v : Str) : Value :=
  if v = [] then .str []
  else
    let lower := v.map Char.toLower
    if lower = "true".data ∨ lower = "yes".data ∨ lower = "1".data ∨
       lower = "on".data ∨ lower = "enabled".data then .bool true
    else if lower = "false".data ∨ lower = "no".data ∨ lower = "0".data ∨
       lower = "off".data ∨ lower = "disabled".data then .bool false
    else
      match pyInt v with
      | some n =>
        if v.contains '.' = false ∧ lower.contains 'e' = false then .int n
        else if pyFloatOk v then .float v else .str v
      | none => if pyFloatOk v then .float v else .str v

/-- The conversion precedence as amended: when the value has no dot and no
exponent letter only an integer parse is attempted (its failure yields the
raw string, never a float); otherwise only a float parse is attempted. -/
def convertEnvValueAmended (v : Str) : Value :=
  if v = [] then .str []
  else
    let lower := v.map Char.toLower
    if lower = "true".data ∨ lower = "yes".data ∨ lower = "1".data ∨
       lower = "on".data ∨ lower = "enabled".data then .bool true
    else if lower = "false".data ∨ lower = "no".data ∨ lower = "0".data ∨
       lower = "off".data ∨ lower = "disabled".data then .bool false
    else if v.contains '.' = false ∧ lower.contains 'e' = false then
      match pyInt v with
      | some n => .int n
      | none => .str v
    else if pyFloatOk v then .float v
    else .str v

theorem get_env_overrides_currentEnv (environ : List (Str × Str))
    (pfx : Str) (cache : Bool) (s : EnvManagerState) :
    (get_env_overrides environ pfx cache s).2.currentEnv = s.currentEnv := by
  unfold get_env_overrides
  cases cache <;> cases s.envCache <;> simp

/-- Delete never removes anything when the parent path of the final
segment does not resolve to a value. -/
theorem deleteNestedSegs_parent_missing {t : Tree} {segs : List Str}
    (h : resolvePath (.dict t) segs.dropLast = none) :
    deleteNestedSegs t segs = (t, false) := by
  induction segs generalizing t with
  | nil => simp [resolvePath] at h
  | cons k ks ih =>
    cases ks with
    | nil => simp [resolvePath] at h
    | cons k2 ks2 =>
      rw [List.dropLast_cons_of_ne_nil (by simp)] at h
      cases hl : lookup t k with
      | none => simp [deleteNestedSegs, hl]
      | some v =>
        rw [show resolvePath (.dict t) (k :: (k2 :: ks2).dropLast)
            = resolvePath v ((k2 :: ks2).dropLast) by simp [resolvePath, hl]] at h
        cases v with
        | dict d =>
          have hd := @ih d h
          simp only [deleteNestedSegs, hl, hd]
          rw [setKey_eq_self_of_lookup hl]
        | null => simp [deleteNestedSegs, hl]
        | bool b => simp [deleteNestedSegs, hl]
        | int n => simp [deleteNestedSegs, hl]
        | float f => simp [deleteNestedSegs, hl]
        | str s => simp [deleteNestedSegs, hl]
        | list l => simp [deleteNestedSegs, hl]

/-- The resolved-config cache, when populated, holds exactly the
resolution of the current raw tree under the current environment. -/
def cacheConsistent (s : CMState) : Prop :=
  ∀ c, s.resolvedCache = some c →
    c = resolveConfig s.config_data s.envSt.currentEnv

theorem cacheConsistent_of_none {s : CMState} (h : s.resolvedCache = none) :
    cacheConsistent s := by
  intro c hc
  rw [h] at hc
  exact absurd hc (by simp)

theorem get_resolved_config_preserves {s : CMState} (b : Bool)
    (h : cacheConsistent s) :
    cacheConsistent (get_resolved_config s b).2 := by
  unfold get_resolved_config
  cases b with
  | false =>
    cases hc : s.resolvedCache <;> simpa [hc] using h
  | true =>
    cases hc : s.resolvedCache with
    | some c => simpa [hc] using h
    | none =>
      intro c hcc
      simp only [hc] at hcc
      simp at hcc
      simp [← hcc]

theorem cmSet_consistent (p : Str) (v : Value) (s : CMState) :
    cacheConsistent (cmSet p v s) :=
  cacheConsistent_of_none rfl

theorem cmUpdate_preserves (us : List (Str × Value)) {s : CMState}
    (h : cacheConsistent s) : cacheConsistent (cmUpdate us s) := by
  induction us generalizing s with
  | nil => exact h
  | cons e rest ih =>
    exact ih (cmSet_consistent e.1 e.2 s)

/-- Every `ConfigManager` operation preserves consistency of the resolved
cache with the (raw tree, active environment) pair. -/
theorem step_preserves_cacheConsistent {s : CMState} (op : Op)
    (h : cacheConsistent s) : cacheConsistent (step s op) := by
  cases op with
  | set p v => exact cmSet_consistent p v s
  | del p =>
    cases hfl : (deleteNestedSegs s.config_data (splitCh '.' p)).2 with
    | true =>
      exact cacheConsistent_of_none (by simp [step, cmDelete, hfl])
    | false =>
      intro c hc
      simp only [step, cmDelete, hfl, if_neg Bool.false_ne_true] at hc
      have := h c hc
      simpa [step, cmDelete, hfl, deleteNestedSegs_noop hfl] using this
  | loadDict d => exact cacheConsistent_of_none rfl
  | update us => exact cmUpdate_preserves us h
  | applyEnvOverrides environ pfx =>
    by_cases he : (get_env_overrides environ pfx true s.envSt).1.isEmpty = false
    · exact cacheConsistent_of_none (by simp [step, cmApplyEnvOverrides, he])
    · intro c hc
      simp only [step, cmApplyEnvOverrides, if_neg he] at hc
      have := h c hc
      simpa [step, cmApplyEnvOverrides, if_neg he,
        get_env_overrides_currentEnv] using this
  | clear => exact cacheConsistent_of_none rfl
  | setEnvironment e => exact cacheConsistent_of_none rfl
  | getResolved b => exact get_resolved_config_preserves b h
  | validateOp r => exact get_resolved_config_preserves true h
  | addRule p r =>
    intro c hc
    exact h c hc

theorem run_preserves_cacheConsistent {s : CMState} (ops : List Op)
    (h : cacheConsistent s) : cacheConsistent (run s ops) := by
  induction ops generalizing s with
  | nil => exact h
  | cons op rest ih =>
    exact ih (step_preserves_cacheConsistent op h)

theorem get_resolved_config_of_consistent {s : CMState}
    (h : cacheConsistent s) :
    (get_resolved_config s true).1
      = resolveConfig s.config_data s.envSt.currentEnv := by
  unfold get_resolved_config
  cases hc : s.resolvedCache with
  | some c => simpa using h c hc
  | none => simp

/-! ### Round-trip lemmas (claim C6) -/

theorem mergeVal_right_not_dict (bv : Option Value) (v : Value)
    (h : v.isDict = false) : mergeVal bv v = v := by
  cases bv with
  | none => exact mergeVal_none v
  | some b => cases b <;> cases v <;> simp_all [mergeVal, Value.isDict]

theorem goodEntries_cons {sep : Char} {k : Str} {v : Value} {rest : Tree} :
    goodEntries sep ((k, v) :: rest) = true ↔
    k.contains sep = false ∧ (keys rest).contains k = false ∧
    goodVal sep v = true ∧ goodEntries sep rest = true := by
  rw [goodEntries]
  simp [Bool.and_eq_true, Bool.not_eq_true', and_assoc]

theorem goodVal_dict {sep : Char} {d : Tree} :
    goodVal sep (.dict d) = true ↔ d ≠ [] ∧ goodEntries sep d = true := by
  rw [goodVal]
  simp only [Bool.and_eq_true, Bool.not_eq_true']
  constructor
  · intro h
    refine ⟨?_, h.2⟩
    intro he
    subst he
    simp at h
  · intro h
    refine ⟨?_, h.2⟩
    cases d with
    | nil => exact absurd rfl h.1
    | cons e r => simp

theorem contains_eq_true_iff_mem {l : List Str} {a : Str} :
    l.contains a = true ↔ a ∈ l := by
  induction l with
  | nil => simp
  | cons x xs ih =>
    simp only [List.contains_cons, Bool.or_eq_true, beq_iff_eq,
      List.mem_cons, ih]

theorem contains_eq_false_iff_not_mem {l : List Str} {a : Str} :
    l.contains a = false ↔ a ∉ l := by
  rw [← contains_eq_true_iff_mem]
  cases h : l.contains a <;> simp

theorem nodupKeys_iff {t : Tree} : nodupKeys t = true ↔ (keys t).Nodup := by
  induction t with
  | nil => simp [nodupKeys]
  | cons e rest ih =>
    obtain ⟨k, v⟩ := e
    rw [nodupKeys]
    simp only [Bool.and_eq_true, Bool.not_eq_true', keys_cons, List.nodup_cons]
    rw [contains_eq_false_iff_not_mem, ih]

theorem goodEntries_nodupKeys {sep : Char} {t : Tree}
    (h : goodEntries sep t = true) : nodupKeys t = true := by
  induction t with
  | nil => rfl
  | cons e rest ih =>
    obtain ⟨k, v⟩ := e
    obtain ⟨h1, h2, h3, h4⟩ := goodEntries_cons.mp h
    simp only [nodupKeys, Bool.and_eq_true, Bool.not_eq_true']
    exact ⟨h2, ih h4⟩

theorem noTopEmptyDict_cons {k : Str} {v : Value} {rest : Tree} :
    noTopEmptyDict ((k, v) :: rest) = true ↔
    (k.isEmpty && v.isDict) = false ∧ noTopEmptyDict rest = true := by
  simp only [noTopEmptyDict, Bool.and_eq_true, Bool.not_eq_true']

/-- Every emitted flat key under a non-empty prefix splits into the split
of the prefix followed by the leaf's segment path. -/
theorem flattenA_splits : ∀ (sep : Char) (t : Tree) (pre : Str),
    goodEntries sep t = true →
    (flattenA sep pre t).map (fun e => splitCh sep e.1)
      = (leafPaths t).map (fun q => splitCh sep pre ++ q)
  | sep, [], pre, _ => by simp [flattenA, leafPaths]
  | sep, (k, .dict d) :: rest, pre, hg => by
    obtain ⟨h1, h2, h3, h4⟩ := goodEntries_cons.mp hg
    have hd := goodVal_dict.mp h3
    simp only [flattenA, leafPaths, List.map_append]
    rw [flattenA_splits sep d (pre ++ sep :: k) hd.2,
      flattenA_splits sep rest pre h4, splitCh_append_sep,
      splitCh_no_sep h1]
    simp [List.map_map, Function.comp_def, List.append_assoc]
  | sep, (k, .null) :: rest, pre, hg => by
    obtain ⟨h1, h2, h3, h4⟩ := goodEntries_cons.mp hg
    simp only [flattenA, leafPaths, List.map_append,
      flattenA_splits sep rest pre h4]
    simp [splitCh_append_sep, splitCh_no_sep h1]
  | sep, (k, .bool b) :: rest, pre, hg => by
    obtain ⟨h1, h2, h3, h4⟩ := goodEntries_cons.mp hg
    simp only [flattenA, leafPaths, List.map_append,
      flattenA_splits sep rest pre h4]
    simp [splitCh_append_sep, splitCh_no_sep h1]
  | sep, (k, .int n) :: rest, pre, hg => by
    obtain ⟨h1, h2, h3, h4⟩ := goodEntries_cons.mp hg
    simp only [flattenA, leafPaths, List.map_append,
      flattenA_splits sep rest pre h4]
    simp [splitCh_append_sep, splitCh_no_sep h1]
  | sep, (k, .float f) :: rest, pre, hg => by
    obtain ⟨h1, h2, h3, h4⟩ := goodEntries_cons.mp hg
    simp only [flattenA, leafPaths, List.map_append,
      flattenA_splits sep rest pre h4]
    simp [splitCh_append_sep, splitCh_no_sep h1]
  | sep, (k, .str s) :: rest, pre, hg => by
    obtain ⟨h1, h2, h3, h4⟩ := goodEntries_cons.mp hg
    simp only [flattenA, leafPaths, List.map_append,
      flattenA_splits sep rest pre h4]
    simp [splitCh_append_sep, splitCh_no_sep h1]
  | sep, (k, .list l) :: rest, pre, hg => by
    obtain ⟨h1, h2, h3, h4⟩ := goodEntries_cons.mp hg
    simp only [flattenA, leafPaths, List.map_append,
      flattenA_splits sep rest pre h4]
    simp [splitCh_append_sep, splitCh_no_sep h1]
termination_by _ t _ _ => sizeOf t
decreasing_by all_goals (simp_wf <;> omega)

/-- Every leaf path is non-empty and starts with a top-level key. -/
theorem leafPaths_head (t : Tree) : ∀ q ∈ leafPaths t,
    ∃ k q', q = k :: q' ∧ k ∈ keys t := by
  induction t with
  | nil => simp [leafPaths]
  | cons e rest ih =>
    obtain ⟨k, v⟩ := e
    intro q hq
    cases v with
    | dict d =>
      simp only [leafPaths, List.mem_append, List.mem_map] at hq
      rcases hq with ⟨q', -, hq'⟩ | hq
      · exact ⟨k, q', hq'.symm, by simp⟩
      · obtain ⟨k', q', hq', hk'⟩ := ih q hq
        exact ⟨k', q', hq', by simp [hk']⟩
    | null =>
      simp only [leafPaths, List.mem_append, List.mem_singleton] at hq
      rcases hq with hq | hq
      · exact ⟨k, [], hq, by simp⟩
      · obtain ⟨k', q', hq', hk'⟩ := ih q hq
        exact ⟨k', q', hq', by simp [hk']⟩
    | bool b =>
      simp only [leafPaths, List.mem_append, List.mem_singleton] at hq
      rcases hq with hq | hq
      · exact ⟨k, [], hq, by simp⟩
      · obtain ⟨k', q', hq', hk'⟩ := ih q hq
        exact ⟨k', q', hq', by simp [hk']⟩
    | int n =>
      simp only [leafPaths, List.mem_append, List.mem_singleton] at hq
      rcases hq with hq | hq
      · exact ⟨k, [], hq, by simp⟩
      · obtain ⟨k', q', hq', hk'⟩ := ih q hq
        exact ⟨k', q', hq', by simp [hk']⟩
    | float f =>
      simp only [leafPaths, List.mem_append, List.mem_singleton] at hq
      rcases hq with hq | hq
      · exact ⟨k, [], hq, by simp⟩
      · obtain ⟨k', q', hq', hk'⟩ := ih q hq
        exact ⟨k', q', hq', by simp [hk']⟩
    | str s =>
      simp only [leafPaths, List.mem_append, List.mem_singleton] at hq
      rcases hq with hq | hq
      · exact ⟨k, [], hq, by simp⟩
      · obtain ⟨k', q', hq', hk'⟩ := ih q hq
        exact ⟨k', q', hq', by simp [hk']⟩
    | list l =>
      simp only [leafPaths, List.mem_append, List.mem_singleton] at hq
      rcases hq with hq | hq
      · exact ⟨k, [], hq, by simp⟩
      · obtain ⟨k', q', hq', hk'⟩ := ih q hq
        exact ⟨k', q', hq', by simp [hk']⟩

theorem not_mem_leafPaths_of_head {rest : Tree} {k : Str} {q : List Str}
    (h2 : (keys rest).contains k = false) (hq : ∃ q', q = k :: q') :
    q ∉ leafPaths rest := by
  intro hqr
  obtain ⟨k', q', hq', hk'⟩ := leafPaths_head rest q hqr
  obtain ⟨q'', hq''⟩ := hq
  rw [hq''] at hq'
  obtain ⟨hk, -⟩ := List.cons.inj hq'
  exact (contains_eq_false_iff_not_mem.mp h2) (hk ▸ hk')

/-- Distinct leaves of a well-formed tree have distinct segment paths. -/
theorem leafPaths_nodup : ∀ (sep : Char) (t : Tree),
    goodEntries sep t = true → (leafPaths t).Nodup
  | sep, [], _ => by simp [leafPaths]
  | sep, (k, .dict d) :: rest, hg => by
    obtain ⟨h1, h2, h3, h4⟩ := goodEntries_cons.mp hg
    simp only [leafPaths]
    apply List.Nodup.append
    · exact (leafPaths_nodup sep d (goodVal_dict.mp h3).2).map
        (fun a b h => (List.cons.inj h).2)
    · exact leafPaths_nodup sep rest h4
    · intro q hq hqr
      simp only [List.mem_map] at hq
      obtain ⟨a, -, ha⟩ := hq
      exact not_mem_leafPaths_of_head h2 ⟨a, ha.symm⟩ hqr
  | sep, (k, .null) :: rest, hg => by
    obtain ⟨h1, h2, h3, h4⟩ := goodEntries_cons.mp hg
    simp only [leafPaths]
    apply List.Nodup.append (by simp) (leafPaths_nodup sep rest h4)
    intro q hq hqr
    simp only [List.mem_singleton] at hq
    exact not_mem_leafPaths_of_head h2 ⟨[], hq⟩ hqr
  | sep, (k, .bool b) :: rest, hg => by
    obtain ⟨h1, h2, h3, h4⟩ := goodEntries_cons.mp hg
    simp only [leafPaths]
    apply List.Nodup.append (by simp) (leafPaths_nodup sep rest h4)
    intro q hq hqr
    simp only [List.mem_singleton] at hq
    exact not_mem_leafPaths_of_head h2 ⟨[], hq⟩ hqr
  | sep, (k, .int n) :: rest, hg => by
    obtain ⟨h1, h2, h3, h4⟩ := goodEntries_cons.mp hg
    simp only [leafPaths]
    apply List.Nodup.append (by simp) (leafPaths_nodup sep rest h4)
    intro q hq hqr
    simp only [List.mem_singleton] at hq
    exact not_mem_leafPaths_of_head h2 ⟨[], hq⟩ hqr
  | sep, (k, .float f) :: rest, hg => by
    obtain ⟨h1, h2, h3, h4⟩ := goodEntries_cons.mp hg
    simp only [leafPaths]
    apply List.Nodup.append (by simp) (leafPaths_nodup sep rest h4)
    intro q hq hqr
    simp only [List.mem_singleton] at hq
    exact not_mem_leafPaths_of_head h2 ⟨[], hq⟩ hqr
  | sep, (k, .str s) :: rest, hg => by
    obtain ⟨h1, h2, h3, h4⟩ := goodEntries_cons.mp hg
    simp only [leafPaths]
    apply List.Nodup.append (by simp) (leafPaths_nodup sep rest h4)
    intro q hq hqr
    simp only [List.mem_singleton] at hq
    exact not_mem_leafPaths_of_head h2 ⟨[], hq⟩ hqr
  | sep, (k, .list l) :: rest, hg => by
    obtain ⟨h1, h2, h3, h4⟩ := goodEntries_cons.mp hg
    simp only [leafPaths]
    apply List.Nodup.append (by simp) (leafPaths_nodup sep rest h4)
    intro q hq hqr
    simp only [List.mem_singleton] at hq
    exact not_mem_leafPaths_of_head h2 ⟨[], hq⟩ hqr
termination_by _ t _ => sizeOf t
decreasing_by all_goals (simp_wf <;> omega)

/-- The flat keys emitted under a non-empty prefix are pairwise
distinct. -/
theorem flattenA_keys_nodup (sep : Char) (t : Tree) (pre : Str)
    (hg : goodEntries sep t = true) :
    (keys (flattenA sep pre t)).Nodup := by
  have hmap : (keys (flattenA sep pre t)).map (splitCh sep)
      = (leafPaths t).map (fun q => splitCh sep pre ++ q) := by
    rw [keys, List.map_map, ← flattenA_splits sep t pre hg]
    rfl
  have hnd : ((keys (flattenA sep pre t)).map (splitCh sep)).Nodup := by
    rw [hmap]
    exact (leafPaths_nodup sep t hg).map
      (fun a b h => List.append_cancel_left h)
  exact hnd.of_map

/-- Every emitted root flat key splits into the leaf's segment path. -/
theorem flattenRootA_splits (sep : Char) (t : Tree)
    (hg : goodEntries sep t = true) (hroot : noTopEmptyDict t = true) :
    (flattenRootA sep t).map (fun e => splitCh sep e.1) = leafPaths t := by
  induction t with
  | nil => simp [flattenRootA, leafPaths]
  | cons e rest ih =>
    obtain ⟨k, v⟩ := e
    obtain ⟨h1, h2, h3, h4⟩ := goodEntries_cons.mp hg
    obtain ⟨hr1, hr2⟩ := noTopEmptyDict_cons.mp hroot
    cases v with
    | dict d =>
      have hke : k.isEmpty = false := by
        cases hk : k.isEmpty
        · rfl
        · rw [hk] at hr1
          simp [Value.isDict] at hr1
      have hd := goodVal_dict.mp h3
      simp only [flattenRootA, leafPaths, List.map_append, hke,
        Bool.false_eq_true, if_false, ih h4 hr2,
        flattenA_splits sep d k hd.2, splitCh_no_sep h1]
      simp [List.map_map, Function.comp_def]
    | null =>
      simp only [flattenRootA, leafPaths, List.map_append, ih h4 hr2]
      simp [splitCh_no_sep h1]
    | bool b =>
      simp only [flattenRootA, leafPaths, List.map_append, ih h4 hr2]
      simp [splitCh_no_sep h1]
    | int n =>
      simp only [flattenRootA, leafPaths, List.map_append, ih h4 hr2]
      simp [splitCh_no_sep h1]
    | float f =>
      simp only [flattenRootA, leafPaths, List.map_append, ih h4 hr2]
      simp [splitCh_no_sep h1]
    | str s =>
      simp only [flattenRootA, leafPaths, List.map_append, ih h4 hr2]
      simp [splitCh_no_sep h1]
    | list l =>
      simp only [flattenRootA, leafPaths, List.map_append, ih h4 hr2]
      simp [splitCh_no_sep h1]

/-- The root flat keys are pairwise distinct. -/
theorem flattenRootA_keys_nodup (sep : Char) (t : Tree)
    (hg : goodEntries sep t = true) (hroot : noTopEmptyDict t = true) :
    (keys (flattenRootA sep t)).Nodup := by
  have hmap : (keys (flattenRootA sep t)).map (splitCh sep) = leafPaths t := by
    rw [keys, List.map_map, ← flattenRootA_splits sep t hg hroot]
    rfl
  have hnd : ((keys (flattenRootA sep t)).map (splitCh sep)).Nodup := by
    rw [hmap]
    exact leafPaths_nodup sep t hg
  exact hnd.of_map

theorem keys_append (x y : Tree) : keys (x ++ y) = keys x ++ keys y :=
  List.map_append _ _ _

theorem lookup_eq_none_of_not_mem_keys {t : Tree} {k : Str}
    (h : k ∉ keys t) : lookup t k = none :=
  lookup_eq_none_of_not_mem (contains_eq_false_iff_not_mem.mpr h)

@[simp] theorem updList_nil (acc : Tree) : updList acc [] = acc := rfl

theorem updList_cons (acc : Tree) (k : Str) (v : Value) (rest : Tree) :
    updList acc ((k, v) :: rest) = updList (setKey acc k v) rest := rfl

/-- `result.update(other)` on keys absent from the accumulator appends the
entries in order. -/
theorem updList_fresh : ∀ (l : List (Str × Value)) (acc : Tree),
    (∀ k, k ∈ keys l → lookup acc k = none) → (keys l).Nodup →
    updList acc l = acc ++ l := by
  intro l
  induction l with
  | nil => intro acc _ _; simp
  | cons e rest ih =>
    intro acc hfresh hnd
    obtain ⟨k, v⟩ := e
    rw [updList_cons,
      setKey_eq_append_of_not_mem v (hfresh k (by simp))]
    rw [keys_cons, List.nodup_cons] at hnd
    rw [ih (acc ++ [(k, v)]) ?_ hnd.2, List.append_assoc]
    · rfl
    · intro k' hk'
      rw [lookup_append, hfresh k' (by simp [hk'])]
      have : k ≠ k' := fun he => hnd.1 (he ▸ hk')
      simp [this]

/-- Under a non-empty prefix and pairwise-distinct flat keys, the dict
accumulation of the source flatten produces exactly the append-form entry
list. -/
theorem flattenStep_eq : ∀ (sep : Char) (t : Tree) (pre : Str) (acc : Tree),
    pre.isEmpty = false → goodEntries sep t = true →
    (keys acc ++ keys (flattenA sep pre t)).Nodup →
    flattenStep sep pre acc t = acc ++ flattenA sep pre t
  | sep, [], pre, acc, _, _, _ => by simp [flattenStep, flattenA]
  | sep, (k, .dict d) :: rest, pre, acc, hpre, hg, hnd => by
    obtain ⟨h1, h2, h3, h4⟩ := goodEntries_cons.mp hg
    have hd := goodVal_dict.mp h3
    have hfa : flattenA sep pre ((k, .dict d) :: rest)
        = flattenA sep (pre ++ sep :: k) d ++ flattenA sep pre rest := by
      simp [flattenA]
    rw [hfa] at hnd ⊢
    rw [keys_append] at hnd
    have hnd2 : ((keys acc ++ keys (flattenA sep (pre ++ sep :: k) d))
        ++ keys (flattenA sep pre rest)).Nodup := by
      rw [List.append_assoc]
      exact hnd
    have hinner : flattenStep sep (pre ++ sep :: k) [] d
        = flattenA sep (pre ++ sep :: k) d := by
      have := flattenStep_eq sep d (pre ++ sep :: k) [] (by simp) hd.2
        (by simpa using flattenA_keys_nodup sep d (pre ++ sep :: k) hd.2)
      simpa using this
    have hupd : updList acc (flattenA sep (pre ++ sep :: k) d)
        = acc ++ flattenA sep (pre ++ sep :: k) d := by
      apply updList_fresh _ _ ?_ (flattenA_keys_nodup sep d _ hd.2)
      intro k' hk'
      apply lookup_eq_none_of_not_mem_keys
      intro hka
      exact (List.nodup_append.mp hnd).2.2 hka (List.mem_append_left _ hk')
    have hrec := flattenStep_eq sep rest pre
        (acc ++ flattenA sep (pre ++ sep :: k) d) hpre h4
        (by rw [keys_append]; exact hnd2)
    rw [show flattenStep sep pre acc ((k, .dict d) :: rest)
        = flattenStep sep pre
            (updList acc (flattenStep sep (pre ++ sep :: k) [] d)) rest
      from by simp [flattenStep, hpre]]
    rw [hinner, hupd, hrec, List.append_assoc]
  | sep, (k, .null) :: rest, pre, acc, hpre, hg, hnd => by
    obtain h := goodEntries_cons.mp hg
    obtain ⟨h1, h2, h3, h4⟩ := h
    have hfa : flattenA sep pre ((k, .null) :: rest)
        = (pre ++ sep :: k, .null) :: flattenA sep pre rest := by
      simp [flattenA]
    rw [hfa] at hnd ⊢
    rw [keys_cons] at hnd
    have hfresh : lookup acc (pre ++ sep :: k) = none := by
      apply lookup_eq_none_of_not_mem_keys
      intro hka
      exact (List.nodup_append.mp hnd).2.2 hka (List.mem_cons_self _ _)
    have hrec := flattenStep_eq sep rest pre
        (acc ++ [(pre ++ sep :: k, .null)]) hpre h4 (by
          rw [keys_append]
          simpa using hnd)
    rw [show flattenStep sep pre acc ((k, .null) :: rest)
        = flattenStep sep pre (setKey acc (pre ++ sep :: k) (.null)) rest
      from by simp [flattenStep, hpre]]
    rw [setKey_eq_append_of_not_mem _ hfresh, hrec, List.append_assoc]
    rfl
  | sep, (k, .bool b) :: rest, pre, acc, hpre, hg, hnd => by
    obtain h := goodEntries_cons.mp hg
    obtain ⟨h1, h2, h3, h4⟩ := h
    have hfa : flattenA sep pre ((k, .bool b) :: rest)
        = (pre ++ sep :: k, .bool b) :: flattenA sep pre rest := by
      simp [flattenA]
    rw [hfa] at hnd ⊢
    rw [keys_cons] at hnd
    have hfresh : lookup acc (pre ++ sep :: k) = none := by
      apply lookup_eq_none_of_not_mem_keys
      intro hka
      exact (List.nodup_append.mp hnd).2.2 hka (List.mem_cons_self _ _)
    have hrec := flattenStep_eq sep rest pre
        (acc ++ [(pre ++ sep :: k, .bool b)]) hpre h4 (by
          rw [keys_append]
          simpa using hnd)
    rw [show flattenStep sep pre acc ((k, .bool b) :: rest)
        = flattenStep sep pre (setKey acc (pre ++ sep :: k) (.bool b)) rest
      from by simp [flattenStep, hpre]]
    rw [setKey_eq_append_of_not_mem _ hfresh, hrec, List.append_assoc]
    rfl
  | sep, (k, .int n) :: rest, pre, acc, hpre, hg, hnd => by
    obtain h := goodEntries_cons.mp hg
    obtain ⟨h1, h2, h3, h4⟩ := h
    have hfa : flattenA sep pre ((k, .int n) :: rest)
        = (pre ++ sep :: k, .int n) :: flattenA sep pre rest := by
      simp [flattenA]
    rw [hfa] at hnd ⊢
    rw [keys_cons] at hnd
    have hfresh : lookup acc (pre ++ sep :: k) = none := by
      apply lookup_eq_none_of_not_mem_keys
      intro hka
      exact (List.nodup_append.mp hnd).2.2 hka (List.mem_cons_self _ _)
    have hrec := flattenStep_eq sep rest pre
        (acc ++ [(pre ++ sep :: k, .int n)]) hpre h4 (by
          rw [keys_append]
          simpa using hnd)
    rw [show flattenStep sep pre acc ((k, .int n) :: rest)
        = flattenStep sep pre (setKey acc (pre ++ sep :: k) (.int n)) rest
      from by simp [flattenStep, hpre]]
    rw [setKey_eq_append_of_not_mem _ hfresh, hrec, List.append_assoc]
    rfl
  | sep, (k, .float f) :: rest, pre, acc, hpre, hg, hnd => by
    obtain h := goodEntries_cons.mp hg
    obtain ⟨h1, h2, h3, h4⟩ := h
    have hfa : flattenA sep pre ((k, .float f) :: rest)
        = (pre ++ sep :: k, .float f) :: flattenA sep pre rest := by
      simp [flattenA]
    rw [hfa] at hnd ⊢
    rw [keys_cons] at hnd
    have hfresh : lookup acc (pre ++ sep :: k) = none := by
      apply lookup_eq_none_of_not_mem_keys
      intro hka
      exact (List.nodup_append.mp hnd).2.2 hka (List.mem_cons_self _ _)
    have hrec := flattenStep_eq sep rest pre
        (acc ++ [(pre ++ sep :: k, .float f)]) hpre h4 (by
          rw [keys_append]
          simpa using hnd)
    rw [show flattenStep sep pre acc ((k, .float f) :: rest)
        = flattenStep sep pre (setKey acc (pre ++ sep :: k) (.float f)) rest
      from by simp [flattenStep, hpre]]
    rw [setKey_eq_append_of_not_mem _ hfresh, hrec, List.append_assoc]
    rfl
  | sep, (k, .str s) :: rest, pre, acc, hpre, hg, hnd => by
    obtain h := goodEntries_cons.mp hg
    obtain ⟨h1, h2, h3, h4⟩ := h
    have hfa : flattenA sep pre ((k, .str s) :: rest)
        = (pre ++ sep :: k, .str s) :: flattenA sep pre rest := by
      simp [flattenA]
    rw [hfa] at hnd ⊢
    rw [keys_cons] at hnd
    have hfresh : lookup acc (pre ++ sep :: k) = none := by
      apply lookup_eq_none_of_not_mem_keys
      intro hka
      exact (List.nodup_append.mp hnd).2.2 hka (List.mem_cons_self _ _)
    have hrec := flattenStep_eq sep rest pre
        (acc ++ [(pre ++ sep :: k, .str s)]) hpre h4 (by
          rw [keys_append]
          simpa using hnd)
    rw [show flattenStep sep pre acc ((k, .str s) :: rest)
        = flattenStep sep pre (setKey acc (pre ++ sep :: k) (.str s)) rest
      from by simp [flattenStep, hpre]]
    rw [setKey_eq_append_of_not_mem _ hfresh, hrec, List.append_assoc]
    rfl
  | sep, (k, .list l) :: rest, pre, acc, hpre, hg, hnd => by
    obtain h := goodEntries_cons.mp hg
    obtain ⟨h1, h2, h3, h4⟩ := h
    have hfa : flattenA sep pre ((k, .list l) :: rest)
        = (pre ++ sep :: k, .list l) :: flattenA sep pre rest := by
      simp [flattenA]
    rw [hfa] at hnd ⊢
    rw [keys_cons] at hnd
    have hfresh : lookup acc (pre ++ sep :: k) = none := by
      apply lookup_eq_none_of_not_mem_keys
      intro hka
      exact (List.nodup_append.mp hnd).2.2 hka (List.mem_cons_self _ _)
    have hrec := flattenStep_eq sep rest pre
        (acc ++ [(pre ++ sep :: k, .list l)]) hpre h4 (by
          rw [keys_append]
          simpa using hnd)
    rw [show flattenStep sep pre acc ((k, .list l) :: rest)
        = flattenStep sep pre (setKey acc (pre ++ sep :: k) (.list l)) rest
      from by simp [flattenStep, hpre]]
    rw [setKey_eq_append_of_not_mem _ hfresh, hrec, List.append_assoc]
    rfl
termination_by _ t _ _ _ _ _ => sizeOf t
decreasing_by all_goals (simp_wf <;> omega)

/-- The root form of the bridge: at the empty prefix the source flatten
produces the root append-form entry list. -/
theorem flattenStepRoot_eq (sep : Char) (t : Tree) : ∀ (acc : Tree),
    goodEntries sep t = true → noTopEmptyDict t = true →
    (keys acc ++ keys (flattenRootA sep t)).Nodup →
    flattenStep sep [] acc t = acc ++ flattenRootA sep t := by
  induction t with
  | nil => intro acc _ _ _; simp [flattenStep, flattenRootA]
  | cons e rest ih =>
    intro acc hg hroot hnd
    obtain ⟨k, v⟩ := e
    obtain ⟨h1, h2, h3, h4⟩ := goodEntries_cons.mp hg
    obtain ⟨hr1, hr2⟩ := noTopEmptyDict_cons.mp hroot
    cases v with
    | dict d =>
      have hke : k.isEmpty = false := by
        cases hk : k.isEmpty
        · rfl
        · rw [hk] at hr1
          simp [Value.isDict] at hr1
      have hd := goodVal_dict.mp h3
      have hfa : flattenRootA sep ((k, .dict d) :: rest)
          = flattenA sep k d ++ flattenRootA sep rest := by
        simp [flattenRootA, hke]
      rw [hfa] at hnd ⊢
      rw [keys_append] at hnd
      have hnd2 : ((keys acc ++ keys (flattenA sep k d))
          ++ keys (flattenRootA sep rest)).Nodup := by
        rw [List.append_assoc]
        exact hnd
      have hinner : flattenStep sep k [] d = flattenA sep k d := by
        have := flattenStep_eq sep d k [] hke hd.2
          (by simpa using flattenA_keys_nodup sep d k hd.2)
        simpa using this
      have hupd : updList acc (flattenA sep k d)
          = acc ++ flattenA sep k d := by
        apply updList_fresh _ _ ?_ (flattenA_keys_nodup sep d _ hd.2)
        intro k' hk'
        apply lookup_eq_none_of_not_mem_keys
        intro hka
        exact (List.nodup_append.mp hnd).2.2 hka (List.mem_append_left _ hk')
      have hrec := ih (acc ++ flattenA sep k d) h4 hr2
        (by rw [keys_append]; exact hnd2)
      rw [show flattenStep sep [] acc ((k, .dict d) :: rest)
          = flattenStep sep []
              (updList acc (flattenStep sep k [] d)) rest
        from by simp [flattenStep]]
      rw [hinner, hupd, hrec, List.append_assoc]
    | null =>
      have hfa : flattenRootA sep ((k, Value.null) :: rest)
          = (k, Value.null) :: flattenRootA sep rest := by simp [flattenRootA]
      rw [hfa] at hnd ⊢
      rw [keys_cons] at hnd
      have hfresh : lookup acc k = none := by
        apply lookup_eq_none_of_not_mem_keys
        intro hka
        exact (List.nodup_append.mp hnd).2.2 hka (List.mem_cons_self _ _)
      have hrec := ih (acc ++ [(k, Value.null)]) h4 hr2 (by
        rw [keys_append]
        simpa using hnd)
      rw [show flattenStep sep [] acc ((k, Value.null) :: rest)
          = flattenStep sep [] (setKey acc k Value.null) rest
        from by simp [flattenStep]]
      rw [setKey_eq_append_of_not_mem _ hfresh, hrec, List.append_assoc]
      rfl
    | bool b =>
      have hfa : flattenRootA sep ((k, Value.bool b) :: rest)
          = (k, Value.bool b) :: flattenRootA sep rest := by
        simp [flattenRootA]
      rw [hfa] at hnd ⊢
      rw [keys_cons] at hnd
      have hfresh : lookup acc k = none := by
        apply lookup_eq_none_of_not_mem_keys
        intro hka
        exact (List.nodup_append.mp hnd).2.2 hka (List.mem_cons_self _ _)
      have hrec := ih (acc ++ [(k, Value.bool b)]) h4 hr2 (by
        rw [keys_append]
        simpa using hnd)
      rw [show flattenStep sep [] acc ((k, Value.bool b) :: rest)
          = flattenStep sep [] (setKey acc k (Value.bool b)) rest
        from by simp [flattenStep]]
      rw [setKey_eq_append_of_not_mem _ hfresh, hrec, List.append_assoc]
      rfl
    | int n =>
      have hfa : flattenRootA sep ((k, Value.int n) :: rest)
          = (k, Value.int n) :: flattenRootA sep rest := by
        simp [flattenRootA]
      rw [hfa] at hnd ⊢
      rw [keys_cons] at hnd
      have hfresh : lookup acc k = none := by
        apply lookup_eq_none_of_not_mem_keys
        intro hka
        exact (List.nodup_append.mp hnd).2.2 hka (List.mem_cons_self _ _)
      have hrec := ih (acc ++ [(k, Value.int n)]) h4 hr2 (by
        rw [keys_append]
        simpa using hnd)
      rw [show flattenStep sep [] acc ((k, Value.int n) :: rest)
          = flattenStep sep [] (setKey acc k (Value.int n)) rest
        from by simp [flattenStep]]
      rw [setKey_eq_append_of_not_mem _ hfresh, hrec, List.append_assoc]
      rfl
    | float f =>
      have hfa : flattenRootA sep ((k, Value.float f) :: rest)
          = (k, Value.float f) :: flattenRootA sep rest := by
        simp [flattenRootA]
      rw [hfa] at hnd ⊢
      rw [keys_cons] at hnd
      have hfresh : lookup acc k = none := by
        apply lookup_eq_none_of_not_mem_keys
        intro hka
        exact (List.nodup_append.mp hnd).2.2 hka (List.mem_cons_self _ _)
      have hrec := ih (acc ++ [(k, Value.float f)]) h4 hr2 (by
        rw [keys_append]
        simpa using hnd)
      rw [show flattenStep sep [] acc ((k, Value.float f) :: rest)
          = flattenStep sep [] (setKey acc k (Value.float f)) rest
        from by simp [flattenStep]]
      rw [setKey_eq_append_of_not_mem _ hfresh, hrec, List.append_assoc]
      rfl
    | str st =>
      have hfa : flattenRootA sep ((k, Value.str st) :: rest)
          = (k, Value.str st) :: flattenRootA sep rest := by
        simp [flattenRootA]
      rw [hfa] at hnd ⊢
      rw [keys_cons] at hnd
      have hfresh : lookup acc k = none := by
        apply lookup_eq_none_of_not_mem_keys
        intro hka
        exact (List.nodup_append.mp hnd).2.2 hka (List.mem_cons_self _ _)
      have hrec := ih (acc ++ [(k, Value.str st)]) h4 hr2 (by
        rw [keys_append]
        simpa using hnd)
      rw [show flattenStep sep [] acc ((k, Value.str st) :: rest)
          = flattenStep sep [] (setKey acc k (Value.str st)) rest
        from by simp [flattenStep]]
      rw [setKey_eq_append_of_not_mem _ hfresh, hrec, List.append_assoc]
      rfl
    | list l =>
      have hfa : flattenRootA sep ((k, Value.list l) :: rest)
          = (k, Value.list l) :: flattenRootA sep rest := by
        simp [flattenRootA]
      rw [hfa] at hnd ⊢
      rw [keys_cons] at hnd
      have hfresh : lookup acc k = none := by
        apply lookup_eq_none_of_not_mem_keys
        intro hka
        exact (List.nodup_append.mp hnd).2.2 hka (List.mem_cons_self _ _)
      have hrec := ih (acc ++ [(k, Value.list l)]) h4 hr2 (by
        rw [keys_append]
        simpa using hnd)
      rw [show flattenStep sep [] acc ((k, Value.list l) :: rest)
          = flattenStep sep [] (setKey acc k (Value.list l)) rest
        from by simp [flattenStep]]
      rw [setKey_eq_append_of_not_mem _ hfresh, hrec, List.append_assoc]
      rfl

/-! ### Replay lemmas: planting flattened subtrees -/

theorem plantAt_nil_tree (P : List Str) (acc : Tree) :
    plantAt acc P [] = acc := by
  cases P <;> rfl

theorem plantAt_nil_path (acc : Tree) (e : Str × Value) (t : Tree) :
    plantAt acc [] (e :: t) = deep_merge acc (e :: t) := rfl

theorem plantAt_cons_path (acc : Tree) (p : Str) (P : List Str)
    (e : Str × Value) (t : Tree) :
    plantAt acc (p :: P) (e :: t)
      = setKey acc p (.dict (plantAt (subd acc p) P (e :: t))) := rfl

theorem deep_merge_single (acc : Tree) (k : Str) (v : Value) :
    deep_merge acc [(k, v)] = setKey acc k (mergeVal (lookup acc k) v) := by
  rw [deep_merge_cons, deep_merge_nil]

theorem deep_merge_cons_split (acc : Tree) (k : Str) (v : Value)
    (rest : Tree) :
    deep_merge acc ((k, v) :: rest)
      = deep_merge (deep_merge acc [(k, v)]) rest := by
  rw [deep_merge_cons, deep_merge_single]

theorem append_singleton_isEmpty_false (P : List Str) (k : Str) :
    (P ++ [k]).isEmpty = false := by
  cases P <;> rfl

/-- Setting a leaf at path `P ++ [k]` is planting the single-entry tree
`[(k, v)]` at `P`. -/
theorem setNestedSegs_plant (P : List Str) (k : Str) (v : Value)
    (hv : v.isDict = false) : ∀ (acc : Tree),
    setNestedSegs acc (P ++ [k]) v = plantAt acc P [(k, v)] := by
  induction P with
  | nil =>
    intro acc
    rw [show setNestedSegs acc ([] ++ [k]) v = setKey acc k v from by
      simp [setNestedSegs]]
    rw [plantAt_nil_path, deep_merge_single, mergeVal_right_not_dict _ _ hv]
  | cons p P' ihP =>
    intro acc
    rw [show setNestedSegs acc (p :: P' ++ [k]) v
        = setKey acc p (.dict (setNestedSegs (subd acc p) (P' ++ [k]) v))
      from by simp [setNestedSegs, append_singleton_isEmpty_false]]
    rw [ihP (subd acc p), plantAt_cons_path]

/-- Planting entry by entry: a cons subtree plants its head then its
tail. -/
theorem plantAt_cons_tree (P : List Str) (k : Str) (v : Value)
    (rest : Tree) : ∀ (acc : Tree),
    plantAt acc P ((k, v) :: rest)
      = plantAt (plantAt acc P [(k, v)]) P rest := by
  induction P with
  | nil =>
    intro acc
    cases rest with
    | nil => rw [plantAt_nil_tree]
    | cons e rest' =>
      rw [plantAt_nil_path, plantAt_nil_path, plantAt_nil_path,
        ← deep_merge_cons_split]
  | cons p P' ihP =>
    intro acc
    cases rest with
    | nil => rw [plantAt_nil_tree]
    | cons e rest' =>
      have hsub : subd (setKey acc p
          (.dict (plantAt (subd acc p) P' [(k, v)]))) p
          = plantAt (subd acc p) P' [(k, v)] := by
        unfold subd
        rw [lookup_setKey_self]
      rw [plantAt_cons_path, plantAt_cons_path, plantAt_cons_path, hsub,
        setKey_setKey, ihP]

/-- Planting a (non-empty, duplicate-free) subtree at `P ++ [k]` is
planting it wrapped as a dict value at `P`. -/
theorem plantAt_snoc (P : List Str) (k : Str) (d : Tree)
    (hnd : nodupKeys d = true) (hne : d ≠ []) : ∀ (acc : Tree),
    plantAt acc (P ++ [k]) d = plantAt acc P [(k, .dict d)] := by
  rcases hd : d with _ | ⟨e, d'⟩
  · exact absurd hd hne
  subst hd
  induction P with
  | nil =>
    intro acc
    rw [show ([] : List Str) ++ [k] = [k] from rfl, plantAt_cons_path,
      plantAt_nil_path, plantAt_nil_path, deep_merge_single]
    cases hl : lookup acc k with
    | none =>
      rw [show subd acc k = [] from by simp [subd, hl], mergeVal_none,
        deep_merge_nil_left hnd]
    | some bv =>
      cases bv with
      | dict bd =>
        rw [show subd acc k = bd from by simp [subd, hl],
          mergeVal_dict_dict]
      | null =>
        rw [show subd acc k = [] from by simp [subd, hl],
          mergeVal_not_dict (Value.null) _ rfl, deep_merge_nil_left hnd]
      | bool b =>
        rw [show subd acc k = [] from by simp [subd, hl],
          mergeVal_not_dict (Value.bool b) _ rfl, deep_merge_nil_left hnd]
      | int n =>
        rw [show subd acc k = [] from by simp [subd, hl],
          mergeVal_not_dict (Value.int n) _ rfl, deep_merge_nil_left hnd]
      | float f =>
        rw [show subd acc k = [] from by simp [subd, hl],
          mergeVal_not_dict (Value.float f) _ rfl, deep_merge_nil_left hnd]
      | str s =>
        rw [show subd acc k = [] from by simp [subd, hl],
          mergeVal_not_dict (Value.str s) _ rfl, deep_merge_nil_left hnd]
      | list l =>
        rw [show subd acc k = [] from by simp [subd, hl],
          mergeVal_not_dict (Value.list l) _ rfl, deep_merge_nil_left hnd]
  | cons p P' ihP =>
    intro acc
    rw [show p :: P' ++ [k] = p :: (P' ++ [k]) from rfl, plantAt_cons_path,
      plantAt_cons_path, ihP (subd acc p)]

theorem replayFlat_append (sep : Char) (acc : Tree)
    (l1 l2 : List (Str × Value)) :
    replayFlat sep acc (l1 ++ l2)
      = replayFlat sep (replayFlat sep acc l1) l2 := by
  simp [replayFlat, List.foldl_append]

theorem replayFlat_cons (sep : Char) (acc : Tree) (k : Str) (v : Value)
    (l : List (Str × Value)) :
    replayFlat sep acc ((k, v) :: l)
      = replayFlat sep (set_nested_value sep acc k v) l := rfl

/-- The central replay lemma: replaying the flat entries of a well-formed
subtree emitted under prefix `pre` into any accumulator plants the subtree
at the split of `pre`. -/
theorem replayFlat_flattenA : ∀ (sep : Char) (t : Tree) (pre : Str)
    (acc : Tree), goodEntries sep t = true →
    replayFlat sep acc (flattenA sep pre t)
      = plantAt acc (splitCh sep pre) t
  | sep, [], pre, acc, _ => by
    rw [show flattenA sep pre [] = [] from by simp [flattenA],
      plantAt_nil_tree]
    rfl
  | sep, (k, .dict d) :: rest, pre, acc, hg => by
    obtain ⟨h1, h2, h3, h4⟩ := goodEntries_cons.mp hg
    have hd := goodVal_dict.mp h3
    rw [show flattenA sep pre ((k, .dict d) :: rest)
        = flattenA sep (pre ++ sep :: k) d ++ flattenA sep pre rest
      from by simp [flattenA]]
    rw [replayFlat_append, replayFlat_flattenA sep d (pre ++ sep :: k) acc hd.2,
      splitCh_append_sep, splitCh_no_sep h1,
      plantAt_snoc _ _ _ (goodEntries_nodupKeys hd.2) hd.1,
      replayFlat_flattenA sep rest pre _ h4, ← plantAt_cons_tree]
  | sep, (k, .null) :: rest, pre, acc, hg => by
    obtain ⟨h1, h2, h3, h4⟩ := goodEntries_cons.mp hg
    rw [show flattenA sep pre ((k, .null) :: rest)
        = (pre ++ sep :: k, Value.null) :: flattenA sep pre rest
      from by simp [flattenA]]
    rw [replayFlat_cons, set_nested_value, splitCh_append_sep,
      splitCh_no_sep h1, setNestedSegs_plant _ _ (Value.null) rfl,
      replayFlat_flattenA sep rest pre _ h4, ← plantAt_cons_tree]
  | sep, (k, .bool b) :: rest, pre, acc, hg => by
    obtain ⟨h1, h2, h3, h4⟩ := goodEntries_cons.mp hg
    rw [show flattenA sep pre ((k, .bool b) :: rest)
        = (pre ++ sep :: k, Value.bool b) :: flattenA sep pre rest
      from by simp [flattenA]]
    rw [replayFlat_cons, set_nested_value, splitCh_append_sep,
      splitCh_no_sep h1, setNestedSegs_plant _ _ (Value.bool b) rfl,
      replayFlat_flattenA sep rest pre _ h4, ← plantAt_cons_tree]
  | sep, (k, .int n) :: rest, pre, acc, hg => by
    obtain ⟨h1, h2, h3, h4⟩ := goodEntries_cons.mp hg
    rw [show flattenA sep pre ((k, .int n) :: rest)
        = (pre ++ sep :: k, Value.int n) :: flattenA sep pre rest
      from by simp [flattenA]]
    rw [replayFlat_cons, set_nested_value, splitCh_append_sep,
      splitCh_no_sep h1, setNestedSegs_plant _ _ (Value.int n) rfl,
      replayFlat_flattenA sep rest pre _ h4, ← plantAt_cons_tree]
  | sep, (k, .float f) :: rest, pre, acc, hg => by
    obtain ⟨h1, h2, h3, h4⟩ := goodEntries_cons.mp hg
    rw [show flattenA sep pre ((k, .float f) :: rest)
        = (pre ++ sep :: k, Value.float f) :: flattenA sep pre rest
      from by simp [flattenA]]
    rw [replayFlat_cons, set_nested_value, splitCh_append_sep,
      splitCh_no_sep h1, setNestedSegs_plant _ _ (Value.float f) rfl,
      replayFlat_flattenA sep rest pre _ h4, ← plantAt_cons_tree]
  | sep, (k, .str s) :: rest, pre, acc, hg => by
    obtain ⟨h1, h2, h3, h4⟩ := goodEntries_cons.mp hg
    rw [show flattenA sep pre ((k, .str s) :: rest)
        = (pre ++ sep :: k, Value.str s) :: flattenA sep pre rest
      from by simp [flattenA]]
    rw [replayFlat_cons, set_nested_value, splitCh_append_sep,
      splitCh_no_sep h1, setNestedSegs_plant _ _ (Value.str s) rfl,
      replayFlat_flattenA sep rest pre _ h4, ← plantAt_cons_tree]
  | sep, (k, .list l) :: rest, pre, acc, hg => by
    obtain ⟨h1, h2, h3, h4⟩ := goodEntries_cons.mp hg
    rw [show flattenA sep pre ((k, .list l) :: rest)
        = (pre ++ sep :: k, Value.list l) :: flattenA sep pre rest
      from by simp [flattenA]]
    rw [replayFlat_cons, set_nested_value, splitCh_append_sep,
      splitCh_no_sep h1, setNestedSegs_plant _ _ (Value.list l) rfl,
      replayFlat_flattenA sep rest pre _ h4, ← plantAt_cons_tree]
termination_by _ t _ _ _ => sizeOf t
decreasing_by all_goals (simp_wf <;> omega)

/-- Replaying the root flat entries of a well-formed tree with no
empty-string top-level dict key into any accumulator deep-merges the tree
over the accumulator. -/
theorem replayFlat_flattenRootA (sep : Char) (t : Tree) : ∀ (acc : Tree),
    goodEntries sep t = true → noTopEmptyDict t = true →
    replayFlat sep acc (flattenRootA sep t) = deep_merge acc t := by
  induction t with
  | nil =>
    intro acc _ _
    rw [show flattenRootA sep [] = [] from by simp [flattenRootA],
      deep_merge_nil]
    rfl
  | cons e rest ih =>
    intro acc hg hroot
    obtain ⟨k, v⟩ := e
    obtain ⟨h1, h2, h3, h4⟩ := goodEntries_cons.mp hg
    obtain ⟨hr1, hr2⟩ := noTopEmptyDict_cons.mp hroot
    cases v with
    | dict d =>
      have hke : k.isEmpty = false := by
        cases hk : k.isEmpty
        · rfl
        · rw [hk] at hr1
          simp [Value.isDict] at hr1
      have hd := goodVal_dict.mp h3
      rw [show flattenRootA sep ((k, .dict d) :: rest)
          = flattenA sep k d ++ flattenRootA sep rest
        from by simp [flattenRootA, hke]]
      rw [replayFlat_append, replayFlat_flattenA sep d k acc hd.2,
        splitCh_no_sep h1]
      have hplant : plantAt acc [k] d = deep_merge acc [(k, .dict d)] := by
        have hs := plantAt_snoc [] k d (goodEntries_nodupKeys hd.2) hd.1 acc
        rw [show ([] : List Str) ++ [k] = [k] from rfl] at hs
        rw [hs, plantAt_nil_path]
      rw [hplant, ih _ h4 hr2, ← deep_merge_cons_split]
    | null =>
      rw [show flattenRootA sep ((k, Value.null) :: rest)
          = (k, Value.null) :: flattenRootA sep rest
        from by simp [flattenRootA]]
      rw [replayFlat_cons, set_nested_value, splitCh_no_sep h1,
        show setNestedSegs acc [k] Value.null = setKey acc k Value.null
          from by simp [setNestedSegs],
        show setKey acc k Value.null = deep_merge acc [(k, Value.null)]
          from by rw [deep_merge_single, mergeVal_right_not_dict _ Value.null rfl],
        ih _ h4 hr2, ← deep_merge_cons_split]
    | bool b =>
      rw [show flattenRootA sep ((k, Value.bool b) :: rest)
          = (k, Value.bool b) :: flattenRootA sep rest
        from by simp [flattenRootA]]
      rw [replayFlat_cons, set_nested_value, splitCh_no_sep h1,
        show setNestedSegs acc [k] (Value.bool b) = setKey acc k (Value.bool b)
          from by simp [setNestedSegs],
        show setKey acc k (Value.bool b)
            = deep_merge acc [(k, Value.bool b)]
          from by rw [deep_merge_single, mergeVal_right_not_dict _ (Value.bool b) rfl],
        ih _ h4 hr2, ← deep_merge_cons_split]
    | int n =>
      rw [show flattenRootA sep ((k, Value.int n) :: rest)
          = (k, Value.int n) :: flattenRootA sep rest
        from by simp [flattenRootA]]
      rw [replayFlat_cons, set_nested_value, splitCh_no_sep h1,
        show setNestedSegs acc [k] (Value.int n) = setKey acc k (Value.int n)
          from by simp [setNestedSegs],
        show setKey acc k (Value.int n)
            = deep_merge acc [(k, Value.int n)]
          from by rw [deep_merge_single, mergeVal_right_not_dict _ (Value.int n) rfl],
        ih _ h4 hr2, ← deep_merge_cons_split]
    | float f =>
      rw [show flattenRootA sep ((k, Value.float f) :: rest)
          = (k, Value.float f) :: flattenRootA sep rest
        from by simp [flattenRootA]]
      rw [replayFlat_cons, set_nested_value, splitCh_no_sep h1,
        show setNestedSegs acc [k] (Value.float f) = setKey acc k (Value.float f)
          from by simp [setNestedSegs],
        show setKey acc k (Value.float f)
            = deep_merge acc [(k, Value.float f)]
          from by rw [deep_merge_single, mergeVal_right_not_dict _ (Value.float f) rfl],
        ih _ h4 hr2, ← deep_merge_cons_split]
    | str st =>
      rw [show flattenRootA sep ((k, Value.str st) :: rest)
          = (k, Value.str st) :: flattenRootA sep rest
        from by simp [flattenRootA]]
      rw [replayFlat_cons, set_nested_value, splitCh_no_sep h1,
        show setNestedSegs acc [k] (Value.str st) = setKey acc k (Value.str st)
          from by simp [setNestedSegs],
        show setKey acc k (Value.str st)
            = deep_merge acc [(k, Value.str st)]
          from by rw [deep_merge_single, mergeVal_right_not_dict _ (Value.str st) rfl],
        ih _ h4 hr2, ← deep_merge_cons_split]
    | list l =>
      rw [show flattenRootA sep ((k, Value.list l) :: rest)
          = (k, Value.list l) :: flattenRootA sep rest
        from by simp [flattenRootA]]
      rw [replayFlat_cons, set_nested_value, splitCh_no_sep h1,
        show setNestedSegs acc [k] (Value.list l) = setKey acc k (Value.list l)
          from by simp [setNestedSegs],
        show setKey acc k (Value.list l)
            = deep_merge acc [(k, Value.list l)]
          from by rw [deep_merge_single, mergeVal_right_not_dict _ (Value.list l) rfl],
        ih _ h4 hr2, ← deep_merge_cons_split]

/-! ### The claims -/

/-- C1 counterexample: with raw tree mapping the key "development" to the
scalar 5 and active environment development, the claim asserts that the
key and its value remain present and unchanged in the resolved
configuration; the code pops the key before testing whether its value is
a dict, so the entry is removed and its value discarded: the resolved
configuration is empty. -/
theorem c1_counterexample_nondict_block :
    (get_resolved_config
      { config_data := [("development".data, Value.int 5)]
        envSt := { currentEnv := .development, envCache := none }
        rules := []
        resolvedCache := none } true).1 = [] ∧
    lookup [("development".data, Value.int 5)] "development".data
      = some (Value.int 5) ∧
    ([] : Tree) ≠ [("development".data, Value.int 5)] := by
  refine ⟨rfl, rfl, ?_⟩
  intro h
  exact List.noConfusion h

/-- C1 (amended): getResolvedConfig with an empty cache returns a copy of
the raw tree's top level from which the top-level key equal to the active
environment's canonical id, when present, is always removed; the removed
value is deep-merged over the remaining copy exactly when it is a nested
structure, and is silently discarded otherwise (so the key is absent from
the result even for a scalar or list value). -/
theorem c1_resolved_config_amended (s : CMState)
    (hc : s.resolvedCache = none)
    (hn : nodupKeys s.config_data = true) :
    (lookup s.config_data s.envSt.currentEnv.value = none →
        (get_resolved_config s true).1 = s.config_data) ∧
    (∀ d, lookup s.config_data s.envSt.currentEnv.value = some (.dict d) →
        (get_resolved_config s true).1
          = deep_merge (removeKey s.config_data s.envSt.currentEnv.value) d) ∧
    (∀ v, lookup s.config_data s.envSt.currentEnv.value = some v →
        v.isDict = false →
        (get_resolved_config s true).1
          = removeKey s.config_data s.envSt.currentEnv.value ∧
        lookup (get_resolved_config s true).1 s.envSt.currentEnv.value
          = none) := by
  have hg : (get_resolved_config s true).1
      = resolveConfig s.config_data s.envSt.currentEnv := by
    simp [get_resolved_config, hc]
  refine ⟨?_, ?_, ?_⟩
  · intro hnone
    rw [hg]
    simp [resolveConfig, hnone]
  · intro d hd
    rw [hg]
    simp [resolveConfig, hd]
  · intro v hv hvd
    rw [hg]
    cases v with
    | dict d => simp [Value.isDict] at hvd
    | null =>
      rw [show resolveConfig s.config_data s.envSt.currentEnv
          = removeKey s.config_data s.envSt.currentEnv.value by
        simp [resolveConfig, hv]]
      exact ⟨rfl, lookup_removeKey_self hn⟩
    | bool b =>
      rw [show resolveConfig s.config_data s.envSt.currentEnv
          = removeKey s.config_data s.envSt.currentEnv.value by
        simp [resolveConfig, hv]]
      exact ⟨rfl, lookup_removeKey_self hn⟩
    | int n =>
      rw [show resolveConfig s.config_data s.envSt.currentEnv
          = removeKey s.config_data s.envSt.currentEnv.value by
        simp [resolveConfig, hv]]
      exact ⟨rfl, lookup_removeKey_self hn⟩
    | float f =>
      rw [show resolveConfig s.config_data s.envSt.currentEnv
          = removeKey s.config_data s.envSt.currentEnv.value by
        simp [resolveConfig, hv]]
      exact ⟨rfl, lookup_removeKey_self hn⟩
    | str st =>
      rw [show resolveConfig s.config_data s.envSt.currentEnv
          = removeKey s.config_data s.envSt.currentEnv.value by
        simp [resolveConfig, hv]]
      exact ⟨rfl, lookup_removeKey_self hn⟩
    | list l =>
      rw [show resolveConfig s.config_data s.envSt.currentEnv
          = removeKey s.config_data s.envSt.currentEnv.value by
        simp [resolveConfig, hv]]
      exact ⟨rfl, lookup_removeKey_self hn⟩

/-- C1 witness: the amended statement applied to a concrete manager whose
environment block is the scalar 5. -/
theorem c1_resolved_config_amended_witness :
    (get_resolved_config
      { config_data := [("development".data, Value.int 5),
                        ("app".data, Value.str "x".data)]
        envSt := { currentEnv := .development, envCache := none }
        rules := []
        resolvedCache := none } true).1
      = removeKey [("development".data, Value.int 5),
                   ("app".data, Value.str "x".data)] "development".data ∧
    lookup (get_resolved_config
      { config_data := [("development".data, Value.int 5),
                        ("app".data, Value.str "x".data)]
        envSt := { currentEnv := .development, envCache := none }
        rules := []
        resolvedCache := none } true).1 "development".data = none :=
  (c1_resolved_config_amended
    { config_data := [("development".data, Value.int 5),
                      ("app".data, Value.str "x".data)]
      envSt := { currentEnv := .development, envCache := none }
      rules := []
      resolvedCache := none } rfl rfl).2.2 (Value.int 5) rfl rfl

/-- C2 counterexample: the input string "inf" contains no dot and no
exponent letter, fails the integer parse, and succeeds as a Python float;
the claim's precedence therefore maps it to a float, but the code attempts
only the integer parse on that branch and returns the raw string. -/
theorem c2_counterexample_inf :
    convert_env_value "inf".data = Value.str "inf".data ∧
    convertEnvValueClaim "inf".data = Value.float "inf".data ∧
    pyFloatOk "inf".data = true ∧
    Value.str "inf".data ≠ Value.float "inf".data :=
  ⟨rfl, rfl, rfl, fun h => Value.noConfusion h⟩

/-- C2 (amended): the override conversion applies this precedence: the
empty string maps to itself; case-insensitive truthy and falsy word sets
map to booleans; then, when the value contains no dot and no exponent
letter, only an integer parse is attempted and its failure yields the raw
string (a float such as inf or nan is never produced there); otherwise
only a float parse is attempted, its failure yielding the raw string.
Scenario 3 holds as stated: CONFIG_DATABASE_PORT=5432 with the CONFIG_
prefix yields the override tree with port as the integer 5432. -/
theorem c2_env_value_conversion :
    (∀ v : Str, convert_env_value v = convertEnvValueAmended v) ∧
    computeOverrides [("CONFIG_DATABASE_PORT".data, "5432".data)]
        "CONFIG_".data
      = [("database".data, Value.dict [("port".data, Value.int 5432)])] :=
  ⟨fun _ => rfl, rfl⟩

/-- C3: cache coherence.  From any state whose resolved cache is
consistent with its (raw tree, active environment) pair (in particular a
fresh manager), after any sequence of operations — set, delete, load,
update, applyEnvOverrides, clear, setEnvironment, getResolvedConfig,
validate, addRule — the next getResolvedConfig call with caching enabled
returns exactly the resolution of the current raw tree under the current
active environment, never a stale combination. -/
theorem c3_cache_coherence (s0 : CMState) (ops : List Op)
    (h : cacheConsistent s0) :
    (get_resolved_config (run s0 ops) true).1
      = resolveConfig (run s0 ops).config_data
          (run s0 ops).envSt.currentEnv :=
  get_resolved_config_of_consistent (run_preserves_cacheConsistent ops h)

/-- C3 witness: a fresh manager, a getResolvedConfig that populates the
cache, then a load and a set; the next read still resolves the current
tree. -/
theorem c3_cache_coherence_witness :
    (get_resolved_config (run (initState .development)
        [Op.getResolved true,
         Op.loadDict [("development".data,
            Value.dict [("app".data,
              Value.dict [("debug".data, Value.bool true)])])],
         Op.set "app.debug".data (Value.bool false)]) true).1
      = resolveConfig (run (initState .development)
        [Op.getResolved true,
         Op.loadDict [("development".data,
            Value.dict [("app".data,
              Value.dict [("debug".data, Value.bool true)])])],
         Op.set "app.debug".data (Value.bool false)]).config_data
        (run (initState .development)
        [Op.getResolved true,
         Op.loadDict [("development".data,
            Value.dict [("app".data,
              Value.dict [("debug".data, Value.bool true)])])],
         Op.set "app.debug".data (Value.bool false)]).envSt.currentEnv :=
  c3_cache_coherence (initState .development) _
    (cacheConsistent_of_none rfl)

/-- C4: deep_merge computes the union of the key sets; a key that is a
dict on both sides merges recursively, a key present in the overlay with
any other type combination takes the overlay value, and a key present
only in the base keeps its base value.  (Input mutation is not
representable: the embedding is pure, and the source deep-copies.) -/
theorem c4_deep_merge_characterization (b o : Tree)
    (ho : nodupKeys o = true) :
    (∀ k, (lookup (deep_merge b o) k).isSome
        = ((lookup b k).isSome || (lookup o k).isSome)) ∧
    (∀ k bd od, lookup b k = some (.dict bd) →
        lookup o k = some (.dict od) →
        lookup (deep_merge b o) k = some (.dict (deep_merge bd od))) ∧
    (∀ k v, lookup o k = some v → v.isDict = false →
        lookup (deep_merge b o) k = some v) ∧
    (∀ k v bv, lookup o k = some v → lookup b k = some bv →
        bv.isDict = false → lookup (deep_merge b o) k = some v) ∧
    (∀ k v, lookup o k = some v → lookup b k = none →
        lookup (deep_merge b o) k = some v) ∧
    (∀ k, lookup o k = none → lookup (deep_merge b o) k = lookup b k) := by
  refine ⟨?_, ?_, ?_, ?_, ?_, ?_⟩
  · intro k
    rw [lookup_deep_merge o ho b k]
    cases hok : lookup o k with
    | none => cases hbk : lookup b k <;> simp
    | some v =>
      cases hbk : lookup b k with
      | none => cases v <;> simp
      | some bv => cases v <;> cases bv <;> simp
  · intro k bd od hb hok
    rw [lookup_deep_merge o ho b k, hok, hb]
  · intro k v hok hv
    rw [lookup_deep_merge o ho b k, hok]
    cases hbk : lookup b k with
    | none => cases v <;> simp_all [Value.isDict]
    | some bv => cases v <;> cases bv <;> simp_all [Value.isDict]
  · intro k v bv hok hb hbv
    rw [lookup_deep_merge o ho b k, hok, hb]
    cases v <;> cases bv <;> simp_all [Value.isDict]
  · intro k v hok hb
    rw [lookup_deep_merge o ho b k, hok, hb]
    cases v <;> simp
  · intro k hok
    rw [lookup_deep_merge o ho b k, hok]

/-- C4 witness: the docstring example of deep_merge, with the dict-valued
key merging recursively. -/
theorem c4_deep_merge_characterization_witness :
    nodupKeys [("db".data, Value.dict
        [("host".data, Value.str "remote".data),
         ("ssl".data, Value.bool true)])] = true ∧
    lookup (deep_merge
        [("db".data, Value.dict
          [("host".data, Value.str "localhost".data),
           ("port".data, Value.int 5432)])]
        [("db".data, Value.dict
          [("host".data, Value.str "remote".data),
           ("ssl".data, Value.bool true)])]) "db".data
      = some (Value.dict (deep_merge
          [("host".data, Value.str "localhost".data),
           ("port".data, Value.int 5432)]
          [("host".data, Value.str "remote".data),
           ("ssl".data, Value.bool true)])) :=
  ⟨rfl, (c4_deep_merge_characterization
      [("db".data, Value.dict
        [("host".data, Value.str "localhost".data),
         ("port".data, Value.int 5432)])]
      [("db".data, Value.dict
        [("host".data, Value.str "remote".data),
         ("ssl".data, Value.bool true)])] rfl).2.1 "db".data _ _ rfl rfl⟩

/-- C5: loading A then B into a fresh store leaves the raw tree equal to
deep_merge A B (sequential loads equal one pre-merged load). -/
theorem c5_sequential_loads (e : Environment) (A B : Tree)
    (hA : nodupKeys A = true) :
    (run (initState e) [Op.loadDict A, Op.loadDict B]).config_data
      = deep_merge A B := by
  show (cmLoadDict B (cmLoadDict A (initState e))).config_data = _
  simp [cmLoadDict, initState, deep_merge_nil_left hA]

/-- C5 witness: the spec's Scenario 1 configuration fragments. -/
theorem c5_sequential_loads_witness :
    (run (initState .development)
      [Op.loadDict [("database".data, Value.dict
          [("host".data, Value.str "first".data),
           ("port".data, Value.int 5432),
           ("ssl".data, Value.bool false)])],
       Op.loadDict [("database".data, Value.dict
          [("host".data, Value.str "second".data),
           ("ssl".data, Value.bool true)])]]).config_data
      = deep_merge
          [("database".data, Value.dict
            [("host".data, Value.str "first".data),
             ("port".data, Value.int 5432),
             ("ssl".data, Value.bool false)])]
          [("database".data, Value.dict
            [("host".data, Value.str "second".data),
             ("ssl".data, Value.bool true)])] :=
  c5_sequential_loads .development _ _ rfl

/-- C6 counterexample: the tree whose single top-level key is the empty
string holding the (non-empty) dict mapping "a" to 1 satisfies the claim's
conditions — no empty nested structures as values, no keys containing the
separator — yet flatten emits the subtree unprefixed (the empty new key is
falsy in Python), so the round trip returns the inner dict and loses the
top-level empty-string key. -/
theorem c6_counterexample_top_empty_key :
    goodEntries '.' [([], Value.dict [(['a'], Value.int 1)])] = true ∧
    unflatten_dict '.' (flatten_dict '.'
        [([], Value.dict [(['a'], Value.int 1)])] [])
      = [(['a'], Value.int 1)] ∧
    [(['a'], Value.int 1)]
      ≠ [(([] : Str), Value.dict [(['a'], Value.int 1)])] := by
  refine ⟨?_, ?_, ?_⟩
  · simp [goodEntries, goodVal, keys]
  · rw [show flatten_dict '.' [(([] : Str), Value.dict [(['a'], Value.int 1)])] []
        = [(['a'], Value.int 1)] from by
      simp [flatten_dict, flattenStep, updList, setKey]]
    rfl
  · intro h
    have := (List.cons.inj h).1
    have hk := (Prod.mk.injEq _ _ _ _ ▸ this).1
    exact List.noConfusion hk

/-- C6 (amended): for every tree with no empty nested structures as
values, no keys containing the separator literally, and no top-level key
equal to the empty string holding a nested structure,
unflatten(flatten(t)) equals t (keys at each level pairwise distinct, as
in any tree denoting a Python dict). -/
theorem c6_flatten_unflatten_round_trip (sep : Char) (t : Tree)
    (hg : goodEntries sep t = true) (hroot : noTopEmptyDict t = true) :
    unflatten_dict sep (flatten_dict sep t []) = t := by
  have hflat : flatten_dict sep t [] = flattenRootA sep t := by
    have := flattenStepRoot_eq sep t [] hg hroot
      (by simpa using flattenRootA_keys_nodup sep t hg hroot)
    simpa [flatten_dict] using this
  rw [hflat,
    show unflatten_dict sep (flattenRootA sep t)
      = replayFlat sep [] (flattenRootA sep t) from rfl,
    replayFlat_flattenRootA sep t [] hg hroot,
    deep_merge_nil_left (goodEntries_nodupKeys hg)]

/-- C6 witness: a two-level configuration tree round-trips. -/
theorem c6_flatten_unflatten_round_trip_witness :
    unflatten_dict '.' (flatten_dict '.'
      [("database".data, Value.dict
          [("host".data, Value.str "localhost".data),
           ("port".data, Value.int 5432)]),
       ("debug".data, Value.bool true)] [])
      = [("database".data, Value.dict
          [("host".data, Value.str "localhost".data),
           ("port".data, Value.int 5432)]),
         ("debug".data, Value.bool true)] :=
  c6_flatten_unflatten_round_trip '.'
    [("database".data, Value.dict
        [("host".data, Value.str "localhost".data),
         ("port".data, Value.int 5432)]),
     ("debug".data, Value.bool true)]
    (by simp [goodEntries, goodVal, keys]) (by simp [noTopEmptyDict])

/-- C7: when a registered key-path resolves to null (in particular when it
is absent), validate emits exactly one required-key error if any rule at
the path is marked required and no error otherwise; a path registered only
with the url rule and absent yields zero errors, one registered with the
required rule and absent yields exactly the single message containing
"Required key is missing". -/
theorem c7_required_vs_optional (config : Tree) (p : Str)
    (rs : List ValidationRule)
    (h : get_nested_value '.' config p .null = .null) :
    (pathErrors config p rs
        = if rs.any (fun r => r.required)
          then [p ++ ": Required key is missing".data] else []) ∧
    validatorErrors [(p, [urlRule])] config = [] ∧
    validatorErrors [(p, [requiredRule])] config
      = [p ++ ": Required key is missing".data] := by
  have h1 : ∀ rs' : List ValidationRule, pathErrors config p rs'
      = if rs'.any (fun r => r.required)
        then [p ++ ": Required key is missing".data] else [] := by
    intro rs'
    unfold pathErrors
    rw [h]
  refine ⟨h1 rs, ?_, ?_⟩
  · simp [validatorErrors, h1, urlRule]
  · simp [validatorErrors, h1, requiredRule]

/-- C7 witness: an empty configuration with the paths absent. -/
theorem c7_required_vs_optional_witness :
    validatorErrors [("database.url".data, [urlRule])] [] = [] ∧
    validatorErrors [("database.url".data, [requiredRule])] []
      = ["database.url".data ++ ": Required key is missing".data] :=
  ⟨(c7_required_vs_optional [] "database.url".data [] rfl).2.1,
   (c7_required_vs_optional [] "database.url".data [] rfl).2.2⟩

/-- C8 counterexample: the claim asserts that for a path with an empty
segment the lookup returns the supplied default and has returns false; on
the tree whose single top-level key is the empty string, the empty path
(one empty segment) resolves: has is true and get returns the stored 1,
not the default 0. -/
theorem c8_counterexample_empty_segment :
    has_nested_key '.' [([], Value.int 1)] [] = true ∧
    get_nested_value '.' [([], Value.int 1)] [] (Value.int 0)
      = Value.int 1 ∧
    Value.int 1 ≠ Value.int 0 := by
  refine ⟨rfl, rfl, ?_⟩
  intro h
  simp at h

/-- C8 (amended): the path operations are total (this embedding is by
total functions, as the source catches KeyError and TypeError): get and
has are the two projections of one path-resolution notion, so whenever a
path does not resolve — in particular through a non-dict intermediate, or
on an empty segment not matching an empty-string key — get returns the
supplied default and has returns false; delete on a path whose parent
chain does not resolve, and more generally whenever it removes nothing,
returns the tree unchanged. -/
theorem c8_path_ops_total (sep : Char) (data : Tree) (path : Str)
    (dflt : Value) :
    (get_nested_value sep data path dflt
        = (resolvePath (.dict data) (splitCh sep path)).getD dflt) ∧
    (has_nested_key sep data path
        = (resolvePath (.dict data) (splitCh sep path)).isSome) ∧
    (resolvePath (.dict data) (splitCh sep path) = none →
        get_nested_value sep data path dflt = dflt ∧
        has_nested_key sep data path = false) ∧
    (resolvePath (.dict data) (splitCh sep path).dropLast = none →
        deleteNestedSegs data (splitCh sep path) = (data, false)) ∧
    ((deleteNestedSegs data (splitCh sep path)).2 = false →
        (deleteNestedSegs data (splitCh sep path)).1 = data) := by
  refine ⟨getNestedSegs_eq_resolve dflt _ _, hasNestedSegs_eq_resolve _ _,
    ?_, fun h => deleteNestedSegs_parent_missing h,
    fun h => deleteNestedSegs_noop h⟩
  intro h
  constructor
  · rw [get_nested_value, getNestedSegs_eq_resolve, h]
    rfl
  · rw [has_nested_key, hasNestedSegs_eq_resolve, h]
    rfl

/-- C8 witness: a missing two-segment path on a one-entry tree. -/
theorem c8_path_ops_total_witness :
    get_nested_value '.' [("a".data, Value.int 1)] "x.y".data
        (Value.int 7) = Value.int 7 ∧
    has_nested_key '.' [("a".data, Value.int 1)] "x.y".data = false ∧
    deleteNestedSegs [("a".data, Value.int 1)] (splitCh '.' "x.y".data)
      = ([("a".data, Value.int 1)], false) :=
  ⟨((c8_path_ops_total '.' [("a".data, Value.int 1)] "x.y".data
      (Value.int 7)).2.2.1 rfl).1,
   ((c8_path_ops_total '.' [("a".data, Value.int 1)] "x.y".data
      (Value.int 7)).2.2.1 rfl).2,
   (c8_path_ops_total '.' [("a".data, Value.int 1)] "x.y".data
      (Value.int 7)).2.2.2.1 rfl⟩

/-- C9: the environment-variable override cache is keyed only by its
presence: a second cached computeOverrides call with a different prefix
returns the tree cached for the first prefix, and a second
applyEnvOverrides with a different prefix merges the first prefix's
overrides a second time. -/
theorem c9_override_cache_ignores_prefix_arg
    (environ : List (Str × Str)) (p1 p2 : Str) (s : EnvManagerState)
    (s0 : CMState)
    (hne : p1 ≠ p2) (hs : s.envCache = none)
    (hs0 : s0.envSt.envCache = none)
    (hnonempty : (computeOverrides environ p1).isEmpty = false) :
    (get_env_overrides environ p2 true
        (get_env_overrides environ p1 true s).2).1
      = (get_env_overrides environ p1 true s).1 ∧
    (get_env_overrides environ p1 true s).1
      = computeOverrides environ p1 ∧
    (cmApplyEnvOverrides environ p2
        (cmApplyEnvOverrides environ p1 s0)).config_data
      = deep_merge
          (deep_merge s0.config_data (computeOverrides environ p1))
          (computeOverrides environ p1) := by
  refine ⟨?_, ?_, ?_⟩
  · simp [get_env_overrides, hs]
  · simp [get_env_overrides, hs]
  · simp [cmApplyEnvOverrides, get_env_overrides, hs0, hnonempty]

/-- C9 witness: CONFIG_A=1 under prefixes CONFIG_ and CFG_. -/
theorem c9_override_cache_ignores_prefix_arg_witness :
    (get_env_overrides [("CONFIG_A".data, "1".data)] "CFG_".data true
        (get_env_overrides [("CONFIG_A".data, "1".data)] "CONFIG_".data
          true { currentEnv := .development, envCache := none }).2).1
      = (get_env_overrides [("CONFIG_A".data, "1".data)] "CONFIG_".data
          true { currentEnv := .development, envCache := none }).1 :=
  (c9_override_cache_ignores_prefix_arg
    [("CONFIG_A".data, "1".data)] "CONFIG_".data "CFG_".data
    { currentEnv := .development, envCache := none }
    (initState .development)
    (by simp) rfl rfl rfl).1

/-- C10 counterexample: validate is not read-only on the resolved-config
cache: on a manager whose cache is empty, validate populates it (via
get_resolved_config with caching), so the cache after the call differs
from the empty cache before it. -/
theorem c10_counterexample_cache_populated :
    ((cmValidate
      { config_data := [("a".data, Value.int 1)]
        envSt := { currentEnv := .development, envCache := none }
        rules := []
        resolvedCache := none } false).2).resolvedCache
      = some [("a".data, Value.int 1)] ∧
    some [("a".data, Value.int 1)] ≠ (none : Option Tree) := by
  refine ⟨rfl, ?_⟩
  intro h
  exact Option.noConfusion h

/-- C10 (amended): validate leaves the configuration tree, the rule
registry and the environment state unchanged; the resolved cache is
unchanged when it was already populated, and is populated with the
resolution of the current (raw tree, environment) pair when it was empty
— it never becomes stale, but it is not always equal to its prior value. -/
theorem c10_validate_frame (s : CMState) (raiseE : Bool) :
    (cmValidate s raiseE).2.config_data = s.config_data ∧
    (cmValidate s raiseE).2.rules = s.rules ∧
    (cmValidate s raiseE).2.envSt = s.envSt ∧
    (∀ c, s.resolvedCache = some c →
        (cmValidate s raiseE).2.resolvedCache = some c) ∧
    (s.resolvedCache = none →
        (cmValidate s raiseE).2.resolvedCache
          = some (resolveConfig s.config_data s.envSt.currentEnv)) := by
  unfold cmValidate get_resolved_config
  cases hc : s.resolvedCache <;> simp [hc]

/-- C10 witness: the frame conditions at a concrete manager with an empty
cache. -/
theorem c10_validate_frame_witness :
    ((cmValidate
      { config_data := [("a".data, Value.int 1)]
        envSt := { currentEnv := .development, envCache := none }
        rules := []
        resolvedCache := none } false).2).config_data
      = [("a".data, Value.int 1)] ∧
    ((cmValidate
      { config_data := [("a".data, Value.int 1)]
        envSt := { currentEnv := .development, envCache := none }
        rules := []
        resolvedCache := none } false).2).resolvedCache
      = some (resolveConfig [("a".data, Value.int 1)] .development) :=
  ⟨(c10_validate_frame
      { config_data := [("a".data, Value.int 1)]
        envSt := { currentEnv := .development, envCache := none }
        rules := []
        resolvedCache := none } false).1,
   (c10_validate_frame
      { config_data := [("a".data, Value.int 1)]
        envSt := { currentEnv := .development, envCache := none }
        rules := []
        resolvedCache := none } false).2.2.2.2 rfl⟩

end CM
